import Mathlib

/-!
# rss_github: feed retrieval and formatting pipeline

A shallow embedding of `main.go`.  Go strings are lists of characters, Go `int`
values are integers, and everything the program reaches outside itself (the
feed parser, the file system, the console) is either an explicit oracle in
`Env` or an explicit component of `World`.

The standard-library routines the program calls (`strings`, `fmt`, `time`) are
embedded to the extent the program exercises them.
-/

namespace RssGithub

/-! ## Package `strings` -/

/-- Go `strings.HasSuffix`: `len(s) >= len(suffix) && s[len(s)-len(suffix):] == suffix`. -/
def HasSuffix (s suffix : List Char) : Bool :=
  decide (suffix.length ≤ s.length) && decide (s.drop (s.length - suffix.length) = suffix)

/-- Go `strings.TrimSuffix`: `s` without the trailing `suffix`, or `s` itself. -/
def TrimSuffix (s suffix : List Char) : List Char :=
  if HasSuffix s suffix then s.take (s.length - suffix.length) else s

/-- Go `strings.Index`: position of the first occurrence of `substr` in `s`
(`none` stands for Go's `-1`). -/
def Index : List Char → List Char → Option Nat
  | [], substr => if substr = [] then some 0 else none
  | c :: s, substr =>
    if substr.isPrefixOf (c :: s) then some 0 else (Index s substr).map (· + 1)

/-- The counting loop of Go `strings.Count` for a non-empty `substr`. -/
def countLoop (substr : List Char) : Nat → List Char → Nat
  | 0, _ => 0
  | fuel + 1, s =>
    match Index s substr with
    | none => 0
    | some i => 1 + countLoop substr fuel (s.drop (i + substr.length))

/-- Go `strings.Count`: number of non-overlapping occurrences of `substr`. -/
def Count (s substr : List Char) : Nat :=
  if substr = [] then s.length + 1 else countLoop substr (s.length + 1) s

/-- The replacement loop of Go `strings.Replace` (non-empty `old`): the first
`n` occurrences, left to right, each followed by the search resuming after it. -/
def replaceLoop (old new : List Char) : Nat → List Char → List Char
  | 0, s => s
  | n + 1, s =>
    match Index s old with
    | none => s
    | some j => s.take j ++ new ++ replaceLoop old new n (s.drop (j + old.length))

/-- Go `strings.Replace(s, old, new, n)` for a non-empty `old`. -/
def Replace (s old new : List Char) (n : Int) : List Char :=
  if old = new ∨ n = 0 then s
  else
    let m := Count s old
    if m = 0 then s
    else
      let n := if n < 0 ∨ (m : Int) < n then m else n.toNat
      replaceLoop old new n s

/-! ## Package `fmt` -/

/-- Go `fmt.Sprintf` restricted to string operands and to the verbs `%s`,
`%v` and `%%`, the only ones in the program's format strings. -/
def Sprintf : List Char → List (List Char) → List Char
  | [], _ => []
  | c :: rest, args =>
    if c = '%' then
      match rest with
      | [] => "%!(NOVERB)".toList
      | v :: rest' =>
        if v = 's' ∨ v = 'v' then
          match args with
          | a :: args' => a ++ Sprintf rest' args'
          | [] => '%' :: '!' :: v :: "(MISSING)".toList ++ Sprintf rest' []
        else if v = '%' then '%' :: Sprintf rest' args
        else '%' :: v :: Sprintf rest' args
    else c :: Sprintf rest args

/-! ## Package `time`

The date computation follows `absDate` and `absClock` as they stand in the Go
releases that count days in 400-, 100-, 4- and 1-year cycles. -/

/-- A `time.Location` with a single zone: a name and an offset in seconds east
of UTC. -/
structure Location where
  name : List Char
  offset : Int
deriving DecidableEq

/-- Go `time.FixedZone`. -/
def FixedZone (name : List Char) (offset : Int) : Location := ⟨name, offset⟩

/-- A `time.Time`: an instant, as 64-bit signed seconds since
1970-01-01T00:00:00Z plus nanoseconds, and the location it is presented in. -/
structure Time where
  unixSec : Int
  nsec : Nat
  loc : Location
deriving DecidableEq

/-- Go `Time.In`: same instant, another location. -/
def Time.In (t : Time) (loc : Location) : Time := { t with loc := loc }

def secondsPerDay : Nat := 86400

def daysPer400Years : Nat := 365 * 400 + 97

def daysPer100Years : Nat := 365 * 100 + 24

def daysPer4Years : Nat := 365 * 4 + 1

/-- Year of the zero of the absolute time scale of package `time`. -/
def absoluteZeroYear : Int := -292277022399

def unixToInternal : Int := (1969 * 365 + 1969 / 4 - 1969 / 100 + 1969 / 400) * 86400

def internalToAbsolute : Int := 9223371966579724800

/-- Go `Time.abs`: seconds since the absolute zero, in the time's location,
as an unsigned 64-bit number. -/
def Time.abs (t : Time) : Nat :=
  ((t.unixSec + t.loc.offset + (unixToInternal + internalToAbsolute)) % 2 ^ 64).toNat

/-- Go `isLeap`. -/
def isLeap (year : Int) : Bool :=
  year.tmod 4 == 0 && (year.tmod 100 != 0 || year.tmod 400 == 0)

/-- Table `daysBefore` of package `time`: days before each month in a non-leap year. -/
def daysBefore : List Nat := [0, 31, 59, 90, 120, 151, 181, 212, 243, 273, 304, 334, 365]

/-- First half of Go `absDate`: year and day of the year (0-based) of a day
count on the absolute scale. -/
def absYearDay (d : Nat) : Int × Nat :=
  -- 400-year cycles
  let n := d / daysPer400Years
  let y := 400 * n
  let d := d - daysPer400Years * n
  -- 100-year cycles
  let n := d / daysPer100Years
  let n := n - (n >>> 2)
  let y := y + 100 * n
  let d := d - daysPer100Years * n
  -- 4-year cycles
  let n := d / daysPer4Years
  let y := y + 4 * n
  let d := d - daysPer4Years * n
  -- years within a 4-year cycle
  let n := d / 365
  let n := n - (n >>> 2)
  let y := y + n
  let d := d - 365 * n
  ((y : Int) + absoluteZeroYear, d)

/-- Second half of Go `absDate`: month (January is 1) and day of the month,
from the day of the year and `leap = isLeap(year)`. -/
def monthDay (leap : Bool) (yday : Nat) : Nat × Nat :=
  if leap && yday == 31 + 29 - 1 then (2, 29)
  else
    let day := if leap && decide (yday > 31 + 29 - 1) then yday - 1 else yday
    let month := day / 31
    let end' := daysBefore.getD (month + 1) 0
    if day ≥ end' then (month + 2, day - end' + 1)
    else (month + 1, day - daysBefore.getD month 0 + 1)

/-- Go `absDate(abs, true)`: year, month, day. -/
def absDate (abs : Nat) : Int × Nat × Nat :=
  let (year, yday) := absYearDay (abs / secondsPerDay)
  (year, monthDay (isLeap year) yday)

/-- Go `absClock`: hour, minute, second within the day. -/
def absClock (abs : Nat) : Nat × Nat × Nat :=
  let sec := abs % secondsPerDay
  let hour := sec / 3600
  let sec := sec - hour * 3600
  let min := sec / 60
  let sec := sec - min * 60
  (hour, min, sec)

def digit (n : Nat) : Char := Char.ofNat (48 + n)

/-- Go `appendInt` of package `time`: decimal text of `x`, zero-padded to
`width`, with a leading minus sign for a negative `x`. -/
def appendInt (x : Int) (width : Nat) : List Char :=
  let sign : List Char := if x < 0 then ['-'] else []
  let u := x.natAbs
  if width = 2 ∧ u < 100 then sign ++ [digit (u / 10), digit (u % 10)]
  else if width = 4 ∧ u < 10000 then
    sign ++ [digit (u / 100 / 10), digit (u / 100 % 10), digit (u % 100 / 10), digit (u % 100 % 10)]
  else
    let digits := Nat.toDigits 10 u
    sign ++ List.replicate (width - digits.length) '0' ++ digits

/-- The layout interpreter of Go `Time.Format` for layouts made of the elements
`2006`, `01`, `02`, `15`, `04`, `05` and of text that holds no layout element
(the other elements of package `time` are not embedded). -/
def formatLayout (year : Int) (month day hour min sec : Nat) : List Char → List Char
  | '2' :: '0' :: '0' :: '6' :: rest =>
    appendInt year 4 ++ formatLayout year month day hour min sec rest
  | '0' :: '1' :: rest => appendInt month 2 ++ formatLayout year month day hour min sec rest
  | '0' :: '2' :: rest => appendInt day 2 ++ formatLayout year month day hour min sec rest
  | '1' :: '5' :: rest => appendInt hour 2 ++ formatLayout year month day hour min sec rest
  | '0' :: '4' :: rest => appendInt min 2 ++ formatLayout year month day hour min sec rest
  | '0' :: '5' :: rest => appendInt sec 2 ++ formatLayout year month day hour min sec rest
  | c :: rest => c :: formatLayout year month day hour min sec rest
  | [] => []

/-- Go `Time.Format`. -/
def Time.Format (t : Time) (layout : List Char) : List Char :=
  let abs := t.abs
  let (year, month, day) := absDate abs
  let (hour, min, sec) := absClock abs
  formatLayout year month day hour min sec layout

/-! ## Data model -/

/-- The fields of a `gofeed.Item` the program reads. -/
structure Item where
  Title : List Char
  Content : List Char
  Link : List Char
  PublishedParsed : Option Time
deriving DecidableEq

structure Release where
  Tag : List Char
  Content : List Char
  URL : List Char
  Date : Time
deriving DecidableEq

structure Commit where
  Title : List Char
  URL : List Char
  Date : Time
deriving DecidableEq

inductive FeedKind where
  | Releases
  | Commits
deriving DecidableEq

/-- The parsed command line. -/
structure Flags where
  urlFlag : List Char
  releasesFlag : Bool
  commitsFlag : Bool
  allFlag : Bool
  numFlag : Int
  outputDir : List Char

/-! ## Environment and observable state -/

/-- What the program reaches outside itself.  Errors are carried as their text.
* `ParseURL k url`: outcome of `fp.ParseURL(url)` when `k` fetches were made before;
* `Create path`: error of `os.Create(path)`, if any;
* `WriteString k`: failure of the `WriteString` call made after `k` earlier
  ones, if any: the error and how many leading characters of the string reached
  the file all the same (the count `n` that `WriteString` returns with the
  error, fewer than the string has);
* `Join`: `filepath.Join`. -/
structure Env where
  ParseURL : Nat → List Char → Except (List Char) (List Item)
  Create : List Char → Option (List Char)
  WriteString : Nat → Option (List Char × Nat)
  Join : List Char → List Char → List Char

/-- Observable state: file contents by path, the text on standard output, the
feed fetches made so far (which function, which URL) and the number of
`WriteString` calls made so far. -/
structure World where
  files : List Char → Option (List Char)
  stdout : List Char
  fetches : List (FeedKind × List Char)
  writes : Nat

/-- How a block of `main` ends: control goes on to the next statement, `main`
returns, or an index expression is out of range. -/
inductive Flow where
  | next (w : World)
  | ret (w : World)
  | indexOutOfRange (w : World)

def Flow.world : Flow → World
  | .next w => w
  | .ret w => w
  | .indexOutOfRange w => w

/-- Go `fmt.Print` of one string. -/
def Print (w : World) (s : List Char) : World := { w with stdout := w.stdout ++ s }

/-- Go `fmt.Println`: operands separated by spaces, then a line break. -/
def Println (w : World) (args : List (List Char)) : World :=
  { w with stdout := w.stdout ++ " ".toList.intercalate args ++ "\n".toList }

/-- Go `fmt.Printf`. -/
def Printf (w : World) (format : List Char) (args : List (List Char)) : World :=
  { w with stdout := w.stdout ++ Sprintf format args }

/-- Go `os.Create`: creates the file or truncates it to empty. -/
def Create (env : Env) (path : List Char) (w : World) : World × Option (List Char) :=
  match env.Create path with
  | some err => (w, some err)
  | none => ({ w with files := fun p => if p = path then some [] else w.files p }, none)

/-- Go `File.WriteString` on the file opened at `path`: the string is appended
to the file, or, when the write fails, the part of it written before the
failure is. -/
def WriteString (env : Env) (path : List Char) (s : List Char) (w : World) :
    World × Option (List Char) :=
  match env.WriteString w.writes with
  | some (err, n) =>
    ({ w with
        files := fun p =>
          if p = path then some ((w.files path).getD [] ++ s.take n) else w.files p
        writes := w.writes + 1 }, some err)
  | none =>
    ({ w with
        files := fun p => if p = path then some ((w.files path).getD [] ++ s) else w.files p
        writes := w.writes + 1 }, none)

/-! ## The program -/

/-- The loop of `GetReleases` over `feed.Items`. -/
def releasesOfItems (items : List Item) : List Release :=
  items.foldl
    (fun releases item =>
      match item.PublishedParsed with
      | none => releases
      | some published =>
        releases ++ [{ Tag := item.Title, Content := item.Content, URL := item.Link,
                       Date := published }])
    []

/-- The loop of `GetCommits` over `feed.Items`. -/
def commitsOfItems (items : List Item) : List Commit :=
  items.foldl
    (fun commits item =>
      match item.PublishedParsed with
      | none => commits
      | some published =>
        commits ++ [{ Title := item.Title, URL := item.Link, Date := published }])
    []

def GetReleases (env : Env) (feedURL : List Char) (w : World) :
    World × Except (List Char) (List Release) :=
  let w1 := { w with fetches := w.fetches ++ [(FeedKind.Releases, feedURL)] }
  match env.ParseURL w.fetches.length feedURL with
  | .error err => (Println w1 [err], .error err)
  | .ok items => (w1, .ok (releasesOfItems items))

def GetCommits (env : Env) (feedURL : List Char) (w : World) :
    World × Except (List Char) (List Commit) :=
  let w1 := { w with fetches := w.fetches ++ [(FeedKind.Commits, feedURL)] }
  match env.ParseURL w.fetches.length feedURL with
  | .error err => (Println w1 [err], .error err)
  | .ok items => (w1, .ok (commitsOfItems items))

def printHelp (w : World) : World :=
  let w := Println w ["使用说明：".toList]
  let w := Println w ["  -u    指定 GitHub 仓库链接（必填项）".toList]
  let w := Println w ["  -r    解析版本记录 releases.atom".toList]
  let w := Println w ["  -c    解析提交记录 commits.atom".toList]
  let w := Println w ["  -all  同时解析 releases.atom 和 commits.atom".toList]
  let w := Println w ["  -n    指定检查的数量，默认为 1".toList]
  Println w ["  -o    指定输出文件的目录路径（发布版本为releases.atom 提交记录为commits.atom）".toList]

/-- The value of `feedURL` after the suffix completion (lines 123-132). -/
def feedURL (f : Flags) : List Char :=
  if !HasSuffix f.urlFlag "/releases.atom".toList && !HasSuffix f.urlFlag "/commits.atom".toList then
    if f.releasesFlag || f.allFlag then TrimSuffix f.urlFlag "/".toList ++ "/releases.atom".toList
    else if f.commitsFlag then TrimSuffix f.urlFlag "/".toList ++ "/commits.atom".toList
    else f.urlFlag
  else f.urlFlag

/-- The value of `*releasesFlag` after the default is applied (lines 135-137). -/
def releasesFlag (f : Flags) : Bool :=
  if !f.releasesFlag && !f.commitsFlag && !f.allFlag then true else f.releasesFlag

/-- The value of `commitFeedURL` (line 177). -/
def commitFeedURL (feedURL : List Char) : List Char :=
  Replace feedURL "releases.atom".toList "commits.atom".toList 1

/-- The date text of a block: the record's date moved to the fixed zone
`UTC+8` and formatted (lines 159/162 and 196/199). -/
def localTimeText (date : Time) : List Char :=
  (date.In (FixedZone "UTC+8".toList (8 * 3600))).Format "2006-01-02 15:04:05".toList

/-- The text `output` of one release (lines 159-164). -/
def releaseOutput (release : Release) : List Char :=
  Sprintf "发布版本：%s\n发布时间：%s\n发布说明：%s\n版本链接：%s\n\n".toList
    [release.Tag, localTimeText release.Date, release.Content, release.URL]

/-- The text `output` of one commit (lines 196-200). -/
def commitOutput (commit : Commit) : List Char :=
  Sprintf "提交说明：%s\n提交时间：%s\n详细链接：%s\n\n".toList
    [commit.Title, localTimeText commit.Date, commit.URL]

/-- The `for i := 0; i < *numFlag && i < len(xs); i++` loops (lines 157 and
194), started at index `i`; `body` is run on `xs[i]`. -/
def outputLoop {α : Type} (numFlag : Int) (xs : List α) (body : α → World → Flow) (i : Nat)
    (w : World) : Flow :=
  if (i : Int) < numFlag ∧ i < xs.length then
    match xs.get? i with
    | none => .indexOutOfRange w
    | some x =>
      match body x w with
      | .next w' => outputLoop numFlag xs body (i + 1) w'
      | stop => stop
  else .next w
termination_by xs.length - i

/-- Body of the releases loop (lines 158-171). -/
def releaseBody (env : Env) (filePath : List Char) (release : Release) (w : World) : Flow :=
  let output := releaseOutput release
  let w := Print w output
  match WriteString env filePath output w with
  | (w, some err) => .ret (Printf w "写入发布版本文件时出错: %v\n".toList [err])
  | (w, none) => .next w

/-- Body of the commits loop (lines 195-207). -/
def commitBody (env : Env) (commitFilePath : List Char) (commit : Commit) (w : World) : Flow :=
  let output := commitOutput commit
  let w := Print w output
  match WriteString env commitFilePath output w with
  | (w, some err) => .ret (Printf w "写入提交记录文件时出错: %v\n".toList [err])
  | (w, none) => .next w

/-- The releases block of `main` (lines 141-172). -/
def releasesPipeline (env : Env) (f : Flags) (feedURL : List Char) (w : World) : Flow :=
  match GetReleases env feedURL w with
  | (w, .error err) => .ret (Println w ["解析发布版本时出错:".toList, feedURL, err])
  | (w, .ok releases) =>
    let w := Println w ["=== 发布版本信息 ===".toList]
    let filePath := env.Join f.outputDir "releases.atom".toList
    match Create env filePath w with
    | (w, some err) => .ret (Printf w "创建或清空发布版本文件时出错: %v\n".toList [err])
    | (w, none) => outputLoop f.numFlag releases (releaseBody env filePath) 0 w

/-- The commits block of `main` (lines 177-208). -/
def commitsPipeline (env : Env) (f : Flags) (feedURL : List Char) (w : World) : Flow :=
  let commitFeedURL := commitFeedURL feedURL
  match GetCommits env commitFeedURL w with
  | (w, .error err) => .ret (Println w ["解析提交记录时出错:".toList, feedURL, err])
  | (w, .ok commits) =>
    let w := Println w ["=== 提交记录信息 ===".toList]
    let commitFilePath := env.Join f.outputDir "commits.atom".toList
    match Create env commitFilePath w with
    | (w, some err) => .ret (Printf w "创建或清空提交记录文件时出错: %v\n".toList [err])
    | (w, none) => outputLoop f.numFlag commits (commitBody env commitFilePath) 0 w

/-- The first half of `main` after the flags are read (lines 139-173): the
releases block when releases are requested, nothing otherwise. -/
def releasesStage (env : Env) (f : Flags) (w : World) : Flow :=
  if releasesFlag f || f.allFlag then releasesPipeline env f (feedURL f) w else .next w

def main (env : Env) (f : Flags) (w : World) : Flow :=
  if f.urlFlag = [] then .ret (printHelp w)
  else
    match releasesStage env f w with
    | .next w =>
      if f.commitsFlag || f.allFlag then commitsPipeline env f (feedURL f) w else .next w
    | stop => stop

/-! ## Specification-side definitions -/

/-- The release record of a feed item that has a publication timestamp. -/
def releaseOfItem (item : Item) : Option Release :=
  item.PublishedParsed.map fun published =>
    { Tag := item.Title, Content := item.Content, URL := item.Link, Date := published }

/-- The commit record of a feed item that has a publication timestamp. -/
def commitOfItem (item : Item) : Option Commit :=
  item.PublishedParsed.map fun published =>
    { Title := item.Title, URL := item.Link, Date := published }

/-- Processing the records of a list one after the other, stopping at the
first whose processing does not fall through. -/
def processAll {α : Type} (body : α → World → Flow) : List α → World → Flow
  | [], w => .next w
  | x :: xs, w =>
    match body x w with
    | .next w' => processAll body xs w'
    | stop => stop

/-- Number of records selected by a count `N` out of `len`. -/
def selected (numFlag : Int) (len : Nat) : Nat :=
  if 0 < numFlag then min numFlag.toNat len else 0

/-! ## States reached by writing blocks -/

/-- The state after the blocks of `xs` went to the console and to the file at
`path`, which held `c` before. -/
def wrote {α : Type} (path : List Char) (fmt : α → List Char) (xs : List α) (c : List Char)
    (w : World) : World :=
  { files := fun p => if p = path then some (c ++ (xs.map fmt).flatten) else w.files p
    stdout := w.stdout ++ (xs.map fmt).flatten
    fetches := w.fetches
    writes := w.writes + xs.length }

/-- A loop body that prints the block of a record, writes it to the file at
`path`, and makes `main` return with a message when the write fails. -/
def EmitsBlocks {α : Type} (env : Env) (path : List Char) (fmt : α → List Char)
    (msg : List Char) (body : α → World → Flow) : Prop :=
  ∀ (x : α) (w : World),
    body x w =
      match WriteString env path (fmt x) (Print w (fmt x)) with
      | (w', some err) => .ret (Printf w' msg [err])
      | (w', none) => .next w'

/-! ## Sample inputs -/

def sampleItem : Item :=
  { Title := "v1.0".toList, Content := "notes".toList,
    Link := "https://example.com/org/repo/releases/tag/v1.0".toList,
    PublishedParsed := some ⟨1704139200, 0, ⟨"UTC".toList, 0⟩⟩ }

/-- `filepath.Join` of a directory and a file name, for directories without
redundant separators. -/
def sampleJoin (dir name : List Char) : List Char :=
  if dir = [] then name else dir ++ '/' :: name

/-- An environment in which the releases feed of the sample repository cannot
be fetched and everything else works. -/
def releasesDownEnv : Env :=
  { ParseURL := fun _ url =>
      if url = "https://example.com/org/repo/releases.atom".toList then
        .error "connection refused".toList
      else .ok [sampleItem]
    Create := fun _ => none
    WriteString := fun _ => none
    Join := sampleJoin }

/-- An environment in which no feed can be fetched. -/
def offlineEnv : Env :=
  { ParseURL := fun _ _ => .error "no route to host".toList
    Create := fun _ => none
    WriteString := fun _ => none
    Join := sampleJoin }

def emptyWorld : World := ⟨fun _ => none, [], [], 0⟩

/-! ## Sample feeds -/

def firstItem : Item :=
  { Title := "v1.2".toList, Content := "fixes".toList, Link := "https://example.com/t/v1.2".toList,
    PublishedParsed := some ⟨1704139200, 0, ⟨"UTC".toList, 0⟩⟩ }

def undatedItem : Item :=
  { Title := "v1.1".toList, Content := "draft".toList, Link := "https://example.com/t/v1.1".toList,
    PublishedParsed := none }

def thirdItem : Item :=
  { Title := "v1.0".toList, Content := "first".toList, Link := "https://example.com/t/v1.0".toList,
    PublishedParsed := some ⟨1700000000, 0, ⟨"CET".toList, 3600⟩⟩ }

/-- An environment in which every fetch returns the same three items, the
second of them without timestamp, and the file system works. -/
def threeItemEnv : Env :=
  { ParseURL := fun _ _ => .ok [firstItem, undatedItem, thirdItem]
    Create := fun _ => none
    WriteString := fun _ => none
    Join := sampleJoin }

/-- The environment `threeItemEnv` with a second write that fails after five
characters. -/
def diskFullEnv : Env :=
  { threeItemEnv with
    WriteString := fun k =>
      if k = 1 then some ("no space left on device".toList, 5) else none }

/-- A loop body that prints its record and falls through. -/
def printChar (x : Char) (w : World) : Flow := .next (Print w [x])

/-! ## Civil time (specification side) -/

/-- Leap years of the proleptic Gregorian calendar. -/
def leapYear (y : Int) : Bool := y % 4 = 0 ∧ (y % 100 ≠ 0 ∨ y % 400 = 0)

/-- Days of month `m` (1 to 12) in a leap or common year. -/
def daysInMonth (leap : Bool) (m : Nat) : Nat :=
  if m = 2 then (if leap then 29 else 28)
  else if m = 4 ∨ m = 6 ∨ m = 9 ∨ m = 11 then 30
  else 31

/-- Days of the year before the first day of month `m`. -/
def daysBeforeMonth (leap : Bool) (m : Nat) : Nat :=
  ((List.range (m - 1)).map fun k => daysInMonth leap (k + 1)).sum

/-- Days from 0001-01-01 to the first day of year `y`. -/
def daysBeforeYear (y : Int) : Int :=
  365 * (y - 1) + (y - 1) / 4 - (y - 1) / 100 + (y - 1) / 400

/-- Seconds from 1970-01-01 00:00:00 to the given civil date and time. -/
def civilToUnix (y : Int) (m d hour min sec : Nat) : Int :=
  (daysBeforeYear y + daysBeforeMonth (leapYear y) m + ((d : Int) - 1) - daysBeforeYear 1970)
      * 86400
    + hour * 3600 + min * 60 + sec

/-- A date and time of the civil calendar. -/
def ValidCivil (y : Int) (m d hour min sec : Nat) : Prop :=
  1 ≤ m ∧ m ≤ 12 ∧ 1 ≤ d ∧ d ≤ daysInMonth (leapYear y) m ∧ hour < 24 ∧ min < 60 ∧ sec < 60

/-- The last `width` decimal digits of `n`, most significant first. -/
def zeroPadded : Nat → Nat → List Char
  | 0, _ => []
  | width + 1, n => zeroPadded width (n / 10) ++ [digit (n % 10)]

set_option maxRecDepth 8000

/-! ## Extraction -/

theorem releasesOfItems_foldl (acc : List Release) (items : List Item) :
    items.foldl
      (fun releases item =>
        match item.PublishedParsed with
        | none => releases
        | some published =>
          releases ++ [{ Tag := item.Title, Content := item.Content, URL := item.Link,
                         Date := published }])
      acc = acc ++ items.filterMap releaseOfItem := by
  induction items generalizing acc with
  | nil => simp
  | cons item items ih =>
    rw [List.foldl_cons, ih]
    cases h : item.PublishedParsed <;> simp [List.filterMap_cons, releaseOfItem, h]

theorem commitsOfItems_foldl (acc : List Commit) (items : List Item) :
    items.foldl
      (fun commits item =>
        match item.PublishedParsed with
        | none => commits
        | some published =>
          commits ++ [{ Title := item.Title, URL := item.Link, Date := published }])
      acc = acc ++ items.filterMap commitOfItem := by
  induction items generalizing acc with
  | nil => simp
  | cons item items ih =>
    rw [List.foldl_cons, ih]
    cases h : item.PublishedParsed <;> simp [List.filterMap_cons, commitOfItem, h]

theorem releasesOfItems_eq (items : List Item) :
    releasesOfItems items = items.filterMap releaseOfItem := by
  simpa using releasesOfItems_foldl [] items

theorem commitsOfItems_eq (items : List Item) :
    commitsOfItems items = items.filterMap commitOfItem := by
  simpa using commitsOfItems_foldl [] items

theorem length_filterMap_published {β : Type} (g : Item → Time → β) (items : List Item) :
    (items.filterMap fun item => item.PublishedParsed.map (g item)).length
      = items.countP fun item => item.PublishedParsed.isSome := by
  induction items with
  | nil => simp
  | cons item items ih =>
    cases h : item.PublishedParsed <;> simp [List.filterMap_cons, List.countP_cons, h, ih]

/-- C5: on a successful parse, `GetReleases` and `GetCommits` return exactly
the items that have a publication timestamp, in feed order, mapped field by
field; the length of the result is the number of such items and is at most the
number of items. -/
theorem extract_published (env : Env) (url : List Char) (w : World) (items : List Item)
    (hparse : env.ParseURL w.fetches.length url = .ok items) :
    (GetReleases env url w).2 = .ok (items.filterMap releaseOfItem)
    ∧ (GetCommits env url w).2 = .ok (items.filterMap commitOfItem)
    ∧ (items.filterMap releaseOfItem).length
        = items.countP (fun item => item.PublishedParsed.isSome)
    ∧ (items.filterMap commitOfItem).length
        = items.countP (fun item => item.PublishedParsed.isSome)
    ∧ items.countP (fun item => item.PublishedParsed.isSome) ≤ items.length := by
  refine ⟨?_, ?_, ?_, ?_, List.countP_le_length _⟩
  · simp [GetReleases, hparse, releasesOfItems_eq]
  · simp [GetCommits, hparse, commitsOfItems_eq]
  · exact length_filterMap_published _ items
  · exact length_filterMap_published _ items

/-! ## Selection -/

theorem outputLoop_from {α : Type} (numFlag : Int) (xs : List α) (body : α → World → Flow) :
    ∀ (m i : Nat) (w : World), xs.length - i = m →
      outputLoop numFlag xs body i w
        = processAll body ((xs.take (selected numFlag xs.length)).drop i) w := by
  intro m
  induction m with
  | zero =>
    intro i w hm
    have hlen : xs.length ≤ i := by omega
    rw [outputLoop, if_neg (by omega)]
    rw [List.drop_eq_nil_of_le (by simp; omega)]
    rfl
  | succ m ih =>
    intro i w hm
    have hi : i < xs.length := by omega
    rw [outputLoop]
    by_cases hn : (i : Int) < numFlag
    · rw [if_pos ⟨hn, hi⟩]
      have hsel : i < selected numFlag xs.length := by
        unfold selected
        rw [if_pos (by omega)]
        omega
      have hlt : i < (xs.take (selected numFlag xs.length)).length := by
        simp only [List.length_take]; omega
      rw [List.get?_eq_getElem?, List.getElem?_eq_getElem hi]
      rw [List.drop_eq_getElem_cons hlt, List.getElem_take]
      simp only [processAll]
      cases hb : body xs[i] w with
      | next w' => simpa using ih (i + 1) w' (by omega)
      | ret w' => rfl
      | indexOutOfRange w' => rfl
    · rw [if_neg (by tauto)]
      have hsel : selected numFlag xs.length ≤ i := by
        unfold selected
        split <;> omega
      rw [List.drop_eq_nil_of_le (by simp only [List.length_take]; omega)]
      rfl

/-- C6: the output loop processes exactly the first `min(N, length)` records
when `N > 0` and none when `N <= 0`, in order; it never indexes outside the
list (an out-of-range outcome can only come from the processing of a record). -/
theorem outputLoop_selects {α : Type} (numFlag : Int) (xs : List α) (body : α → World → Flow)
    (w : World) :
    outputLoop numFlag xs body 0 w
        = processAll body (xs.take (if 0 < numFlag then min numFlag.toNat xs.length else 0)) w
    ∧ (xs.take (if 0 < numFlag then min numFlag.toNat xs.length else 0)).length
        = (if 0 < numFlag then min numFlag.toNat xs.length else 0)
    ∧ ((∀ (x : α) (v v' : World), body x v ≠ .indexOutOfRange v') →
        ∀ v' : World, outputLoop numFlag xs body 0 w ≠ .indexOutOfRange v') := by
  have hloop := outputLoop_from numFlag xs body (xs.length - 0) 0 w rfl
  simp only [List.drop_zero, selected] at hloop
  refine ⟨hloop, ?_, ?_⟩
  · split <;> simp
  · intro hbody
    rw [hloop]
    clear hloop
    generalize xs.take (if 0 < numFlag then min numFlag.toNat xs.length else 0) = ys
    induction ys generalizing w with
    | nil => intro v'; simp [processAll]
    | cons y ys ih =>
      intro v'
      simp only [processAll]
      cases hb : body y w with
      | next w' => exact ih w' v'
      | ret w' => simp
      | indexOutOfRange w' => exact absurd hb (hbody y w w')

/-! ## Block format -/

/-- C10: a release block is the four labelled fields tag, date, content, url,
each value unchanged and followed by a line break, then an empty line; a commit
block is the three labelled fields title, date, url, ended the same way. -/
theorem output_block_format (release : Release) (commit : Commit) :
    releaseOutput release
        = "发布版本：".toList ++ release.Tag ++ "\n".toList
          ++ "发布时间：".toList ++ localTimeText release.Date ++ "\n".toList
          ++ "发布说明：".toList ++ release.Content ++ "\n".toList
          ++ "版本链接：".toList ++ release.URL ++ "\n".toList
          ++ "\n".toList
    ∧ commitOutput commit
        = "提交说明：".toList ++ commit.Title ++ "\n".toList
          ++ "提交时间：".toList ++ localTimeText commit.Date ++ "\n".toList
          ++ "详细链接：".toList ++ commit.URL ++ "\n".toList
          ++ "\n".toList
    ∧ "\n\n".toList <:+ releaseOutput release
    ∧ "\n\n".toList <:+ commitOutput commit := by
  have hr : releaseOutput release
        = "发布版本：".toList ++ release.Tag ++ "\n".toList
          ++ "发布时间：".toList ++ localTimeText release.Date ++ "\n".toList
          ++ "发布说明：".toList ++ release.Content ++ "\n".toList
          ++ "版本链接：".toList ++ release.URL ++ "\n".toList
          ++ "\n".toList := by
    simp [releaseOutput, Sprintf]
  have hc : commitOutput commit
        = "提交说明：".toList ++ commit.Title ++ "\n".toList
          ++ "提交时间：".toList ++ localTimeText commit.Date ++ "\n".toList
          ++ "详细链接：".toList ++ commit.URL ++ "\n".toList
          ++ "\n".toList := by
    simp [commitOutput, Sprintf]
  have hnl : "\n\n".toList = "\n".toList ++ "\n".toList := rfl
  refine ⟨hr, hc, ?_, ?_⟩
  · rw [hr, hnl, List.append_assoc _ "\n".toList]; exact List.suffix_append _ _
  · rw [hc, hnl, List.append_assoc _ "\n".toList]; exact List.suffix_append _ _

/-! ## Writing the blocks -/

theorem releaseBody_emits (env : Env) (path : List Char) :
    EmitsBlocks env path releaseOutput "写入发布版本文件时出错: %v\n".toList
      (releaseBody env path) :=
  fun _ _ => rfl

theorem commitBody_emits (env : Env) (path : List Char) :
    EmitsBlocks env path commitOutput "写入提交记录文件时出错: %v\n".toList
      (commitBody env path) :=
  fun _ _ => rfl

theorem wrote_nil {α : Type} (path : List Char) (fmt : α → List Char) (c : List Char)
    (w : World) (hfile : w.files path = some c) : wrote path fmt [] c w = w := by
  cases w with
  | mk files stdout fetches writes =>
    simp only [wrote, List.map_nil, List.flatten_nil, List.append_nil, List.length_nil,
      Nat.add_zero, World.mk.injEq, and_true]
    funext p
    by_cases hp : p = path
    · simp only [hp, if_true]; exact hfile.symm
    · simp only [hp, if_false]

theorem processAll_ok {α : Type} (env : Env) (path : List Char) (fmt : α → List Char)
    (msg : List Char) (body : α → World → Flow) (hbody : EmitsBlocks env path fmt msg body)
    (xs : List α) :
    ∀ (w : World) (c : List Char), w.files path = some c →
      (∀ k, k < xs.length → env.WriteString (w.writes + k) = none) →
      processAll body xs w = .next (wrote path fmt xs c w) := by
  induction xs with
  | nil =>
    intro w c hfile _
    simp only [processAll]
    rw [wrote_nil path fmt c w hfile]
  | cons x xs ih =>
    intro w c hfile hw
    have h0 : env.WriteString w.writes = none := by simpa using hw 0 (by simp)
    simp only [processAll]
    rw [hbody x w]
    simp only [WriteString, Print, h0]
    rw [ih _ (c ++ fmt x) (by simp [hfile])
      (by intro k hk; simpa [Nat.add_assoc, Nat.add_comm 1 k] using hw (k + 1) (by simpa using hk))]
    congr 1
    simp only [wrote, List.map_cons, List.flatten_cons, List.length_cons, List.append_assoc,
      World.mk.injEq, true_and]
    refine ⟨?_, by omega⟩
    funext p
    by_cases hp : p = path <;> simp [hp]

theorem processAll_append {α : Type} (body : α → World → Flow) (xs ys : List α) :
    ∀ w : World, processAll body (xs ++ ys) w =
      match processAll body xs w with
      | .next w' => processAll body ys w'
      | stop => stop := by
  induction xs with
  | nil => intro w; rfl
  | cons x xs ih =>
    intro w
    simp only [List.cons_append, processAll]
    cases hb : body x w with
    | next w' => exact ih w'
    | ret w' => rfl
    | indexOutOfRange w' => rfl

/-- The run stops at the first failing write: the earlier blocks are in the
file, followed by the part of the failing block written before the failure;
the failing block is on the console, and nothing follows but the error
message. -/
theorem processAll_fail {α : Type} (env : Env) (path : List Char) (fmt : α → List Char)
    (msg : List Char) (body : α → World → Flow) (hbody : EmitsBlocks env path fmt msg body)
    (pre : List α) (x : α) (post : List α) (w : World) (c err : List Char) (n : Nat)
    (hfile : w.files path = some c)
    (hok : ∀ k, k < pre.length → env.WriteString (w.writes + k) = none)
    (hfail : env.WriteString (w.writes + pre.length) = some (err, n)) :
    processAll body (pre ++ x :: post) w =
      .ret { files := fun p =>
               if p = path then some (c ++ (pre.map fmt).flatten ++ (fmt x).take n)
               else w.files p
             stdout := w.stdout ++ (pre.map fmt).flatten ++ fmt x ++ Sprintf msg [err]
             fetches := w.fetches
             writes := w.writes + pre.length + 1 } := by
  rw [processAll_append, processAll_ok env path fmt msg body hbody pre w c hfile hok]
  simp only [processAll]
  rw [hbody x]
  simp only [WriteString, Print, Printf, wrote, hfail]
  congr 2
  funext p
  by_cases hp : p = path <;> simp [hp]

theorem outputLoop_eq_processAll {α : Type} (numFlag : Int) (xs : List α)
    (body : α → World → Flow) (w : World) :
    outputLoop numFlag xs body 0 w
      = processAll body (xs.take (selected numFlag xs.length)) w := by
  simpa using outputLoop_from numFlag xs body (xs.length - 0) 0 w rfl

/-- The releases block when the fetch and the file creation succeed, as a
run of the block loop over the selected records. -/
theorem releasesPipeline_fetched (env : Env) (f : Flags) (url : List Char) (w : World)
    (items : List Item)
    (hparse : env.ParseURL w.fetches.length url = .ok items)
    (hcreate : env.Create (env.Join f.outputDir "releases.atom".toList) = none) :
    releasesPipeline env f url w =
      processAll (releaseBody env (env.Join f.outputDir "releases.atom".toList))
        ((items.filterMap releaseOfItem).take
          (selected f.numFlag (items.filterMap releaseOfItem).length))
        { files := fun p =>
            if p = env.Join f.outputDir "releases.atom".toList then some [] else w.files p
          stdout := w.stdout ++ "=== 发布版本信息 ===\n".toList
          fetches := w.fetches ++ [(FeedKind.Releases, url)]
          writes := w.writes } := by
  have hhead : " ".toList.intercalate ["=== 发布版本信息 ===".toList] ++ "\n".toList
      = "=== 发布版本信息 ===\n".toList := by decide
  simp only [releasesPipeline, GetReleases, hparse, Create, hcreate, Println,
    outputLoop_eq_processAll, releasesOfItems_eq, List.append_assoc, hhead]

/-- The commits block when the fetch and the file creation succeed. -/
theorem commitsPipeline_fetched (env : Env) (f : Flags) (url : List Char) (w : World)
    (items : List Item)
    (hparse : env.ParseURL w.fetches.length (commitFeedURL url) = .ok items)
    (hcreate : env.Create (env.Join f.outputDir "commits.atom".toList) = none) :
    commitsPipeline env f url w =
      processAll (commitBody env (env.Join f.outputDir "commits.atom".toList))
        ((items.filterMap commitOfItem).take
          (selected f.numFlag (items.filterMap commitOfItem).length))
        { files := fun p =>
            if p = env.Join f.outputDir "commits.atom".toList then some [] else w.files p
          stdout := w.stdout ++ "=== 提交记录信息 ===\n".toList
          fetches := w.fetches ++ [(FeedKind.Commits, commitFeedURL url)]
          writes := w.writes } := by
  have hhead : " ".toList.intercalate ["=== 提交记录信息 ===".toList] ++ "\n".toList
      = "=== 提交记录信息 ===\n".toList := by decide
  simp only [commitsPipeline, GetCommits, hparse, Create, hcreate, Println,
    outputLoop_eq_processAll, commitsOfItems_eq, List.append_assoc, hhead]

/-- C8: after a kind's pipeline whose fetch, file creation and writes all
succeed, the kind's file holds exactly the blocks of the first `min(N, length)`
records (none when `N <= 0`), in feed order, whatever it held before; so a
second run leaves only the blocks of the second run. -/
theorem file_holds_selected_blocks (env : Env) (f : Flags) (url : List Char) (w : World)
    (ritems citems : List Item)
    (hparseR : ∀ k, env.ParseURL k url = .ok ritems)
    (hparseC : ∀ k, env.ParseURL k (commitFeedURL url) = .ok citems)
    (hcreate : ∀ p, env.Create p = none)
    (hwrite : ∀ k, env.WriteString k = none) :
    (∃ w', releasesPipeline env f url w = .next w'
      ∧ w'.files (env.Join f.outputDir "releases.atom".toList)
        = some ((((ritems.filterMap releaseOfItem).take
            (selected f.numFlag (ritems.filterMap releaseOfItem).length)).map
              releaseOutput).flatten))
    ∧ (∃ w', commitsPipeline env f url w = .next w'
      ∧ w'.files (env.Join f.outputDir "commits.atom".toList)
        = some ((((citems.filterMap commitOfItem).take
            (selected f.numFlag (citems.filterMap commitOfItem).length)).map
              commitOutput).flatten))
    ∧ (∀ n2 : Int,
        (releasesPipeline env { f with numFlag := n2 } url
            (releasesPipeline env f url w).world).world.files
          (env.Join f.outputDir "releases.atom".toList)
        = some ((((ritems.filterMap releaseOfItem).take
            (selected n2 (ritems.filterMap releaseOfItem).length)).map
              releaseOutput).flatten))
    ∧ (∀ n2 : Int,
        (commitsPipeline env { f with numFlag := n2 } url
            (commitsPipeline env f url w).world).world.files
          (env.Join f.outputDir "commits.atom".toList)
        = some ((((citems.filterMap commitOfItem).take
            (selected n2 (citems.filterMap commitOfItem).length)).map
              commitOutput).flatten)) := by
  have hR : ∀ (g : Flags) (v : World), g.outputDir = f.outputDir →
      releasesPipeline env g url v = .next
        (wrote (env.Join f.outputDir "releases.atom".toList) releaseOutput
          ((ritems.filterMap releaseOfItem).take
            (selected g.numFlag (ritems.filterMap releaseOfItem).length)) []
          { files := fun p =>
              if p = env.Join f.outputDir "releases.atom".toList then some [] else v.files p
            stdout := v.stdout ++ "=== 发布版本信息 ===\n".toList
            fetches := v.fetches ++ [(FeedKind.Releases, url)]
            writes := v.writes }) := by
    intro g v hg
    rw [releasesPipeline_fetched env g url v ritems (hparseR _) (hcreate _), hg]
    exact processAll_ok env _ releaseOutput _ _ (releaseBody_emits env _) _ _ [] (by simp)
      (fun k _ => hwrite _)
  have hC : ∀ (g : Flags) (v : World), g.outputDir = f.outputDir →
      commitsPipeline env g url v = .next
        (wrote (env.Join f.outputDir "commits.atom".toList) commitOutput
          ((citems.filterMap commitOfItem).take
            (selected g.numFlag (citems.filterMap commitOfItem).length)) []
          { files := fun p =>
              if p = env.Join f.outputDir "commits.atom".toList then some [] else v.files p
            stdout := v.stdout ++ "=== 提交记录信息 ===\n".toList
            fetches := v.fetches ++ [(FeedKind.Commits, commitFeedURL url)]
            writes := v.writes }) := by
    intro g v hg
    rw [commitsPipeline_fetched env g url v citems (hparseC _) (hcreate _), hg]
    exact processAll_ok env _ commitOutput _ _ (commitBody_emits env _) _ _ [] (by simp)
      (fun k _ => hwrite _)
  refine ⟨⟨_, hR f w rfl, by simp [wrote]⟩, ⟨_, hC f w rfl, by simp [wrote]⟩, ?_, ?_⟩
  · intro n2
    rw [hR { f with numFlag := n2 } _ rfl]
    simp [wrote, Flow.world]
  · intro n2
    rw [hC { f with numFlag := n2 } _ rfl]
    simp [wrote, Flow.world]

theorem take_selected_split {α : Type} (xs : List α) (numFlag : Int) (j : Nat) (x : α)
    (hj : j < selected numFlag xs.length) (hx : xs[j]? = some x) :
    ∃ post, xs.take (selected numFlag xs.length) = xs.take j ++ x :: post
      ∧ (xs.take j).length = j := by
  have hle : selected numFlag xs.length ≤ xs.length := by
    unfold selected; split <;> omega
  have hjl : j < xs.length := by omega
  have hxj : xs[j] = x := by
    rw [List.getElem?_eq_getElem hjl] at hx
    exact Option.some.inj hx
  refine ⟨(xs.take (selected numFlag xs.length)).drop (j + 1), ?_, ?_⟩
  · have h1 : j < (xs.take (selected numFlag xs.length)).length := by
      simp only [List.length_take]; omega
    conv_lhs => rw [← List.take_append_drop j (xs.take (selected numFlag xs.length))]
    rw [List.take_take, List.drop_eq_getElem_cons h1, List.getElem_take, hxj]
    congr 2
    omega
  · simp only [List.length_take]; omega

/-- The releases block when the write of the record at index `j` is the first
that fails. -/
theorem releasesPipeline_write_failure (env : Env) (f : Flags) (url : List Char) (w : World)
    (items : List Item) (j : Nat) (x : Release) (err : List Char) (n : Nat)
    (hparse : env.ParseURL w.fetches.length url = .ok items)
    (hcreate : env.Create (env.Join f.outputDir "releases.atom".toList) = none)
    (hj : j < selected f.numFlag (items.filterMap releaseOfItem).length)
    (hx : (items.filterMap releaseOfItem)[j]? = some x)
    (hok : ∀ k, k < j → env.WriteString (w.writes + k) = none)
    (hfail : env.WriteString (w.writes + j) = some (err, n)) :
    releasesPipeline env f url w =
      .ret { files := fun p =>
               if p = env.Join f.outputDir "releases.atom".toList then
                 some ((((items.filterMap releaseOfItem).take j).map releaseOutput).flatten
                   ++ (releaseOutput x).take n)
               else w.files p
             stdout := w.stdout ++ "=== 发布版本信息 ===\n".toList
               ++ (((items.filterMap releaseOfItem).take j).map releaseOutput).flatten
               ++ releaseOutput x
               ++ "写入发布版本文件时出错: ".toList ++ err ++ "\n".toList
             fetches := w.fetches ++ [(FeedKind.Releases, url)]
             writes := w.writes + j + 1 } := by
  rw [releasesPipeline_fetched env f url w items hparse hcreate]
  obtain ⟨post, h1, hlen⟩ := take_selected_split (items.filterMap releaseOfItem) f.numFlag j x hj hx
  rw [h1, processAll_fail env _ releaseOutput _ _ (releaseBody_emits env _) _ x post _ [] err n
    (by simp) (by intro k hk; exact hok k (by omega)) (by simpa [hlen] using hfail)]
  simp [hlen, Sprintf, List.append_assoc]
  funext p
  split <;> simp_all

/-- The commits block when the write of the record at index `j` is the first
that fails. -/
theorem commitsPipeline_write_failure (env : Env) (f : Flags) (url : List Char) (w : World)
    (items : List Item) (j : Nat) (x : Commit) (err : List Char) (n : Nat)
    (hparse : env.ParseURL w.fetches.length (commitFeedURL url) = .ok items)
    (hcreate : env.Create (env.Join f.outputDir "commits.atom".toList) = none)
    (hj : j < selected f.numFlag (items.filterMap commitOfItem).length)
    (hx : (items.filterMap commitOfItem)[j]? = some x)
    (hok : ∀ k, k < j → env.WriteString (w.writes + k) = none)
    (hfail : env.WriteString (w.writes + j) = some (err, n)) :
    commitsPipeline env f url w =
      .ret { files := fun p =>
               if p = env.Join f.outputDir "commits.atom".toList then
                 some ((((items.filterMap commitOfItem).take j).map commitOutput).flatten
                   ++ (commitOutput x).take n)
               else w.files p
             stdout := w.stdout ++ "=== 提交记录信息 ===\n".toList
               ++ (((items.filterMap commitOfItem).take j).map commitOutput).flatten
               ++ commitOutput x
               ++ "写入提交记录文件时出错: ".toList ++ err ++ "\n".toList
             fetches := w.fetches ++ [(FeedKind.Commits, commitFeedURL url)]
             writes := w.writes + j + 1 } := by
  rw [commitsPipeline_fetched env f url w items hparse hcreate]
  obtain ⟨post, h1, hlen⟩ := take_selected_split (items.filterMap commitOfItem) f.numFlag j x hj hx
  rw [h1, processAll_fail env _ commitOutput _ _ (commitBody_emits env _) _ x post _ [] err n
    (by simp) (by intro k hk; exact hok k (by omega)) (by simpa [hlen] using hfail)]
  simp [hlen, Sprintf, List.append_assoc]
  funext p
  split <;> simp_all

/-- C9 (amended): when the write of the selected block at index `j` (the
`j + 1`-th) is the first that fails, the kind's pipeline makes `main` return at
once: the file holds the `j` blocks before it, in order, followed by the
leading part of the failing block that the failed write put on disk (nothing
when it wrote nothing); the console holds the header, the blocks up to and
including the failing one and the error message; no further block is written
or printed.  Each kind's statement rests on that kind's feed alone. -/
theorem write_failure_stops (env : Env) (f : Flags) (url : List Char) (w : World) :
    (∀ (items : List Item) (j : Nat) (x : Release) (err : List Char) (n : Nat),
      env.ParseURL w.fetches.length url = .ok items →
      env.Create (env.Join f.outputDir "releases.atom".toList) = none →
      j < selected f.numFlag (items.filterMap releaseOfItem).length →
      (items.filterMap releaseOfItem)[j]? = some x →
      (∀ k, k < j → env.WriteString (w.writes + k) = none) →
      env.WriteString (w.writes + j) = some (err, n) →
      releasesPipeline env f url w =
        .ret { files := fun p =>
                 if p = env.Join f.outputDir "releases.atom".toList then
                   some ((((items.filterMap releaseOfItem).take j).map releaseOutput).flatten
                     ++ (releaseOutput x).take n)
                 else w.files p
               stdout := w.stdout ++ "=== 发布版本信息 ===\n".toList
                 ++ (((items.filterMap releaseOfItem).take j).map releaseOutput).flatten
                 ++ releaseOutput x
                 ++ "写入发布版本文件时出错: ".toList ++ err ++ "\n".toList
               fetches := w.fetches ++ [(FeedKind.Releases, url)]
               writes := w.writes + j + 1 })
    ∧ (∀ (items : List Item) (j : Nat) (x : Commit) (err : List Char) (n : Nat),
      env.ParseURL w.fetches.length (commitFeedURL url) = .ok items →
      env.Create (env.Join f.outputDir "commits.atom".toList) = none →
      j < selected f.numFlag (items.filterMap commitOfItem).length →
      (items.filterMap commitOfItem)[j]? = some x →
      (∀ k, k < j → env.WriteString (w.writes + k) = none) →
      env.WriteString (w.writes + j) = some (err, n) →
      commitsPipeline env f url w =
        .ret { files := fun p =>
                 if p = env.Join f.outputDir "commits.atom".toList then
                   some ((((items.filterMap commitOfItem).take j).map commitOutput).flatten
                     ++ (commitOutput x).take n)
                 else w.files p
               stdout := w.stdout ++ "=== 提交记录信息 ===\n".toList
                 ++ (((items.filterMap commitOfItem).take j).map commitOutput).flatten
                 ++ commitOutput x
                 ++ "写入提交记录文件时出错: ".toList ++ err ++ "\n".toList
               fetches := w.fetches ++ [(FeedKind.Commits, commitFeedURL url)]
               writes := w.writes + j + 1 }) :=
  ⟨fun items j x err n hparse hcreate hj hx hok hfail =>
      releasesPipeline_write_failure env f url w items j x err n hparse hcreate hj hx hok hfail,
    fun items j x err n hparse hcreate hj hx hok hfail =>
      commitsPipeline_write_failure env f url w items j x err n hparse hcreate hj hx hok hfail⟩

/-! ## Feed URLs -/

theorem trimSuffix_isPrefix (s suffix : List Char) : TrimSuffix s suffix <+: s := by
  unfold TrimSuffix
  split
  · exact List.take_prefix _ _
  · exact List.prefix_refl _

theorem isPrefixOf_before_slash (r : List Char) :
    ∀ (old a : List Char), '/' ∉ old → old.isPrefixOf (a ++ '/' :: r) = true →
      old.isPrefixOf a = true := by
  intro old
  induction old with
  | nil => intro a _ _; simp
  | cons x xs ih =>
    intro a hx h
    cases a with
    | nil =>
      simp only [List.nil_append, List.isPrefixOf, Bool.and_eq_true, beq_iff_eq] at h
      exact absurd h.1 (by intro e; exact hx (by simp [e]))
    | cons y ys =>
      simp only [List.cons_append, List.isPrefixOf, Bool.and_eq_true, beq_iff_eq] at h ⊢
      exact ⟨h.1, ih ys (fun hm => hx (List.mem_cons_of_mem _ hm)) h.2⟩

theorem index_eq_none (old : List Char) (hne : old ≠ []) :
    ∀ s : List Char, ¬ old <:+: s → Index s old = none := by
  intro s
  induction s with
  | nil => intro _; simp [Index, hne]
  | cons c s ih =>
    intro h
    rw [List.infix_cons_iff, not_or] at h
    have hp : old.isPrefixOf (c :: s) = false := by
      rw [Bool.eq_false_iff]
      intro hp
      exact h.1 (List.isPrefixOf_iff_prefix.mp hp)
    simp [Index, hp, ih h.2]

theorem index_after_slash (old r : List Char) (hne : old ≠ []) (hslash : '/' ∉ old) :
    ∀ t : List Char, ¬ old <:+: t →
      Index (t ++ '/' :: r) old = (Index r old).map (· + (t.length + 1)) := by
  intro t
  induction t with
  | nil =>
    intro _
    have hp : old.isPrefixOf ('/' :: r) = false := by
      rw [Bool.eq_false_iff]
      intro hp
      have := isPrefixOf_before_slash r old [] hslash (by simpa using hp)
      cases old with
      | nil => exact hne rfl
      | cons x xs => simp [List.isPrefixOf] at this
    simp only [List.nil_append, Index, hp, Bool.false_eq_true, if_false, List.length_nil,
      Nat.zero_add]
  | cons c t ih =>
    intro h
    rw [List.infix_cons_iff, not_or] at h
    have hp : old.isPrefixOf (c :: (t ++ '/' :: r)) = false := by
      rw [Bool.eq_false_iff]
      intro hp
      have := isPrefixOf_before_slash r old (c :: t) hslash (by simpa using hp)
      exact h.1 (List.isPrefixOf_iff_prefix.mp this)
    have hstep : Index (c :: (t ++ '/' :: r)) old
        = (Index (t ++ '/' :: r) old).map (· + 1) := by
      rw [Index]
      simp only [hp, Bool.false_eq_true, if_false]
    rw [List.cons_append, hstep, ih h.2, Option.map_map]
    cases Index r old with
    | none => rfl
    | some i => simp only [Option.map_some', Function.comp_apply, List.length_cons, Nat.add_assoc]

theorem index_self (old : List Char) : Index old old = some 0 := by
  cases old with
  | nil => simp [Index]
  | cons c s =>
    have hp : (c :: s).isPrefixOf (c :: s) = true :=
      List.isPrefixOf_iff_prefix.mpr (List.prefix_refl _)
    simp only [Index, hp, if_true]

theorem count_eq_zero (s old : List Char) (hne : old ≠ []) (h : Index s old = none) :
    Count s old = 0 := by
  simp only [Count, hne, if_false, countLoop, h]

theorem count_ne_zero (s old : List Char) (hne : old ≠ []) (j : Nat)
    (h : Index s old = some j) : Count s old ≠ 0 := by
  simp only [Count, hne, if_false, countLoop, h]
  omega

theorem replace_absent (s old new : List Char) (n : Int) (hne : old ≠ [])
    (h : ¬ old <:+: s) : Replace s old new n = s := by
  have hc : Count s old = 0 := count_eq_zero s old hne (index_eq_none old hne s h)
  simp only [Replace, hc, if_true, ite_self]

/-- Replacing the first occurrence when it is the text after the last slash. -/
theorem replace_first_after_slash (t old new : List Char) (hne : old ≠ []) (hslash : '/' ∉ old)
    (hneq : old ≠ new) (h : ¬ old <:+: t) :
    Replace (t ++ '/' :: old) old new 1 = t ++ '/' :: new := by
  have hidx : Index (t ++ '/' :: old) old = some (t.length + 1) := by
    rw [index_after_slash old old hne hslash t h, index_self]
    simp
  have hcount := count_ne_zero _ old hne _ hidx
  have hlt : ¬ ((Count (t ++ '/' :: old) old : Int) < 1) := by omega
  have htake : (t ++ '/' :: old).take (t.length + 1) = t ++ ['/'] := by
    have : t ++ '/' :: old = (t ++ ['/']) ++ old := by simp
    rw [this, List.take_left' (by simp)]
  have hdrop : (t ++ '/' :: old).drop (t.length + 1 + old.length) = [] := by
    apply List.drop_eq_nil_of_le
    simp only [List.length_append, List.length_cons]
    omega
  have h1 : (1 : Int).toNat = 1 := rfl
  have h10 : ¬ ((1 : Int) = 0) := by decide
  have h1neg : ¬ ((1 : Int) < 0) := by decide
  simp only [Replace, hneq, h10, or_self, if_false, hcount, h1neg, hlt, h1, replaceLoop, hidx,
    htake, hdrop, List.append_nil, List.append_assoc, List.singleton_append]

/-- Replacing leaves a text without occurrence as it is. -/
theorem replace_none_after_slash (t old new r : List Char) (hne : old ≠ [])
    (hslash : '/' ∉ old) (h : ¬ old <:+: t) (hr : Index r old = none) :
    Replace (t ++ '/' :: r) old new 1 = t ++ '/' :: r := by
  have hidx : Index (t ++ '/' :: r) old = none := by
    rw [index_after_slash old r hne hslash t h, hr]
    rfl
  have hc := count_eq_zero _ old hne hidx
  simp only [Replace, hc, if_true, ite_self]

/-- The commits URL derived from a completed releases URL. -/
theorem commitFeedURL_releases (t : List Char) (h : ¬ "releases.atom".toList <:+: t) :
    commitFeedURL (t ++ "/releases.atom".toList) = t ++ "/commits.atom".toList :=
  replace_first_after_slash t "releases.atom".toList "commits.atom".toList (by decide)
    (by decide) (by decide) h

/-- The commits URL derived from a completed commits URL. -/
theorem commitFeedURL_commits (t : List Char) (h : ¬ "releases.atom".toList <:+: t) :
    commitFeedURL (t ++ "/commits.atom".toList) = t ++ "/commits.atom".toList :=
  replace_none_after_slash t "releases.atom".toList "commits.atom".toList "commits.atom".toList
    (by decide) (by decide) h (by decide)

/-! ## The fetches of a run -/

theorem processAll_fetches {α : Type} (body : α → World → Flow)
    (hbody : ∀ (x : α) (w : World), (body x w).world.fetches = w.fetches) (xs : List α) :
    ∀ w : World, (processAll body xs w).world.fetches = w.fetches := by
  induction xs with
  | nil => intro w; rfl
  | cons x xs ih =>
    intro w
    have hx := hbody x w
    simp only [processAll]
    cases hb : body x w with
    | next w' => rw [hb] at hx; rw [ih w']; exact hx
    | ret w' => rw [hb] at hx; exact hx
    | indexOutOfRange w' => rw [hb] at hx; exact hx

theorem releaseBody_fetches (env : Env) (path : List Char) (x : Release) (w : World) :
    (releaseBody env path x w).world.fetches = w.fetches := by
  cases h : env.WriteString w.writes <;>
    simp [releaseBody, WriteString, Print, Printf, Flow.world, h]

theorem commitBody_fetches (env : Env) (path : List Char) (x : Commit) (w : World) :
    (commitBody env path x w).world.fetches = w.fetches := by
  cases h : env.WriteString w.writes <;>
    simp [commitBody, WriteString, Print, Printf, Flow.world, h]

theorem releasesPipeline_fetches (env : Env) (f : Flags) (url : List Char) (w : World) :
    (releasesPipeline env f url w).world.fetches = w.fetches ++ [(FeedKind.Releases, url)] := by
  cases hp : env.ParseURL w.fetches.length url with
  | error err => simp only [releasesPipeline, GetReleases, hp, Println, Flow.world]
  | ok items =>
    cases hc : env.Create (env.Join f.outputDir "releases.atom".toList) with
    | some err =>
      simp only [releasesPipeline, GetReleases, hp, Create, hc, Println, Printf, Flow.world]
    | none =>
      rw [releasesPipeline_fetched env f url w items hp hc,
        processAll_fetches _ (releaseBody_fetches env _)]

theorem commitsPipeline_fetches (env : Env) (f : Flags) (url : List Char) (w : World) :
    (commitsPipeline env f url w).world.fetches
      = w.fetches ++ [(FeedKind.Commits, commitFeedURL url)] := by
  cases hp : env.ParseURL w.fetches.length (commitFeedURL url) with
  | error err => simp only [commitsPipeline, GetCommits, hp, Println, Flow.world]
  | ok items =>
    cases hc : env.Create (env.Join f.outputDir "commits.atom".toList) with
    | some err =>
      simp only [commitsPipeline, GetCommits, hp, Create, hc, Println, Printf, Flow.world]
    | none =>
      rw [commitsPipeline_fetched env f url w items hp hc,
        processAll_fetches _ (commitBody_fetches env _)]

theorem releasesStage_fetches (env : Env) (f : Flags) (w : World) :
    (releasesStage env f w).world.fetches
      = w.fetches ++ (if releasesFlag f || f.allFlag then [(FeedKind.Releases, feedURL f)]
          else []) := by
  unfold releasesStage
  split
  · exact releasesPipeline_fetches env f _ w
  · simp [Flow.world]

/-- The fetches of a run: the releases fetch when releases are requested, then
the commits fetch when commits are requested and the first half of `main` did
not return. -/
theorem main_fetches (env : Env) (f : Flags) (w : World) (hu : f.urlFlag ≠ []) :
    (main env f w).world.fetches
      = w.fetches
        ++ (if releasesFlag f || f.allFlag then [(FeedKind.Releases, feedURL f)] else [])
        ++ (match releasesStage env f w with
            | .next _ =>
              if f.commitsFlag || f.allFlag then
                [(FeedKind.Commits, commitFeedURL (feedURL f))]
              else []
            | _ => []) := by
  have hst := releasesStage_fetches env f w
  unfold main
  rw [if_neg hu]
  cases hr : releasesStage env f w with
  | next w1 =>
    rw [hr] at hst
    simp only [Flow.world] at hst
    simp only []
    split
    · rw [commitsPipeline_fetches, hst]
    · simp [Flow.world, hst]
  | ret w1 =>
    rw [hr] at hst
    simp only [Flow.world] at hst
    simp [Flow.world, hst]
  | indexOutOfRange w1 =>
    rw [hr] at hst
    simp only [Flow.world] at hst
    simp [Flow.world, hst]

theorem nonempty_of_hasSuffix (s suffix : List Char) (hne : suffix ≠ [])
    (h : HasSuffix s suffix = true) : s ≠ [] := by
  intro hs
  subst hs
  simp only [HasSuffix, List.length_nil, Nat.le_zero_eq, List.length_eq_zero, List.drop_nil,
    Bool.and_eq_true, decide_eq_true_eq] at h
  exact hne h.1

theorem feedURL_of_suffixed (f : Flags)
    (hs : HasSuffix f.urlFlag "/releases.atom".toList = true
      ∨ HasSuffix f.urlFlag "/commits.atom".toList = true) : feedURL f = f.urlFlag := by
  unfold feedURL
  rcases hs with hs | hs <;>
    simp only [hs, Bool.not_true, Bool.false_and, Bool.and_false, Bool.false_eq_true, if_false]

/-! ## Claims about the feed URLs and the order of the two kinds -/

theorem main_releases_fetch_error (env : Env) (f : Flags) (w : World) (err : List Char)
    (hu : f.urlFlag ≠ []) (hrel : (releasesFlag f || f.allFlag) = true)
    (hfail : env.ParseURL w.fetches.length (feedURL f) = .error err) :
    main env f w =
      .ret { files := w.files
             stdout := w.stdout ++ err ++ "\n".toList
               ++ "解析发布版本时出错:".toList ++ " ".toList ++ feedURL f ++ " ".toList ++ err
               ++ "\n".toList
             fetches := w.fetches ++ [(FeedKind.Releases, feedURL f)]
             writes := w.writes } := by
  simp only [main, if_neg hu, releasesStage, hrel, if_true, releasesPipeline, GetReleases, hfail,
    Println, List.intercalate, List.intersperse, List.flatten, List.append_assoc,
    List.append_nil]

/-- C1 (amended): when both kinds are requested and the fetch of the releases
feed fails, `main` returns after reporting the error (the error, then the
message naming the URL, on the console): `GetCommits` is not called and no
file is created or written. -/
theorem releases_fetch_failure_ends_run (env : Env) (f : Flags) (w : World) (err : List Char)
    (hu : f.urlFlag ≠ [])
    (hboth : f.allFlag = true ∨ (f.releasesFlag = true ∧ f.commitsFlag = true))
    (hfail : env.ParseURL w.fetches.length (feedURL f) = .error err) :
    (∃ w', main env f w = .ret w')
    ∧ (main env f w).world.fetches = w.fetches ++ [(FeedKind.Releases, feedURL f)]
    ∧ (∀ u, (FeedKind.Commits, u) ∈ (main env f w).world.fetches →
        (FeedKind.Commits, u) ∈ w.fetches)
    ∧ (main env f w).world.files = w.files
    ∧ (main env f w).world.writes = w.writes
    ∧ (main env f w).world.stdout
        = w.stdout ++ err ++ "\n".toList
          ++ "解析发布版本时出错:".toList ++ " ".toList ++ feedURL f ++ " ".toList ++ err
          ++ "\n".toList := by
  have hrel : (releasesFlag f || f.allFlag) = true := by
    rcases hboth with h | ⟨h, _⟩
    · simp [h]
    · simp [releasesFlag, h]
  have hmain := main_releases_fetch_error env f w err hu hrel hfail
  rw [hmain]
  refine ⟨⟨_, rfl⟩, rfl, ?_, rfl, rfl, rfl⟩
  intro u hmem
  simp only [Flow.world, List.mem_append, List.mem_singleton, Prod.mk.injEq] at hmem
  rcases hmem with h | ⟨h, _⟩
  · exact h
  · exact absurd h (by decide)

theorem releases_fetch_failure_ends_run_witness :
    ("https://example.com/org/repo".toList ≠ [])
    ∧ releasesDownEnv.ParseURL 0 "https://example.com/org/repo/releases.atom".toList
        = .error "connection refused".toList
    ∧ (main releasesDownEnv ⟨"https://example.com/org/repo".toList, false, false, true, 1, []⟩
        emptyWorld).world.fetches
        = [(FeedKind.Releases, "https://example.com/org/repo/releases.atom".toList)] :=
  ⟨by decide, rfl,
    (releases_fetch_failure_ends_run releasesDownEnv
      ⟨"https://example.com/org/repo".toList, false, false, true, 1, []⟩ emptyWorld
      "connection refused".toList (by decide) (Or.inl rfl) rfl).2.1⟩

/-- C1 as stated fails: with `-all`, a releases fetch that fails and a commits
feed that could be fetched, `GetCommits` is not called and the commits file is
not created. -/
theorem commits_skipped_after_releases_failure :
    releasesDownEnv.ParseURL 1 "https://example.com/org/repo/commits.atom".toList
        = .ok [sampleItem]
    ∧ (FeedKind.Commits, "https://example.com/org/repo/commits.atom".toList)
        ∉ (main releasesDownEnv
            ⟨"https://example.com/org/repo".toList, false, false, true, 1, []⟩
            emptyWorld).world.fetches
    ∧ (main releasesDownEnv ⟨"https://example.com/org/repo".toList, false, false, true, 1, []⟩
        emptyWorld).world.files "commits.atom".toList = none := by
  refine ⟨rfl, ?_, ?_⟩
  · decide
  · decide

/-- With `-r` or `-all` the suffix completion does append `/releases.atom`. -/
theorem feedURL_releases_requested (f : Flags)
    (hr : HasSuffix f.urlFlag "/releases.atom".toList = false)
    (hc : HasSuffix f.urlFlag "/commits.atom".toList = false)
    (hreq : (f.releasesFlag || f.allFlag) = true) :
    feedURL f = TrimSuffix f.urlFlag "/".toList ++ "/releases.atom".toList := by
  unfold feedURL
  simp only [hr, hc, Bool.not_false, Bool.and_self, if_true]
  rw [if_pos hreq]

/-- C2: with no kind flag the releases pipeline runs by default, and
`GetReleases` is called on the input URL as given, not on the URL completed
with `/releases.atom`. -/
theorem default_kind_fetches_uncompleted_url (env : Env) (w : World) :
    (main env ⟨"https://example.com/org/repo".toList, false, false, false, 1, []⟩
        w).world.fetches
      = w.fetches ++ [(FeedKind.Releases, "https://example.com/org/repo".toList)]
    ∧ HasSuffix "https://example.com/org/repo".toList "/releases.atom".toList = false
    ∧ HasSuffix "https://example.com/org/repo".toList "/commits.atom".toList = false
    ∧ TrimSuffix "https://example.com/org/repo".toList "/".toList ++ "/releases.atom".toList
        = "https://example.com/org/repo/releases.atom".toList := by
  refine ⟨?_, by decide, by decide, by decide⟩
  rw [main_fetches env _ w (by decide)]
  have h1 : (releasesFlag ⟨"https://example.com/org/repo".toList, false, false, false, 1, []⟩
      || false) = true := by decide
  have h2 : feedURL ⟨"https://example.com/org/repo".toList, false, false, false, 1, []⟩
      = "https://example.com/org/repo".toList := by decide
  simp only [h1, h2, if_true, Bool.or_self, Bool.false_eq_true, if_false]
  cases releasesStage env ⟨"https://example.com/org/repo".toList, false, false, false, 1, []⟩ w <;>
    simp

/-- C3 (amended): for an input URL that already ends in `/releases.atom` or
`/commits.atom`, whatever the kind flags, `GetReleases` is called on the input
URL as given and `GetCommits` on the input URL with its first `releases.atom`
replaced by `commits.atom`; every fetch is on the input URL unchanged when the
URL does not contain `releases.atom`. -/
theorem suffixed_url_fetches (env : Env) (f : Flags) (w : World)
    (hs : HasSuffix f.urlFlag "/releases.atom".toList = true
      ∨ HasSuffix f.urlFlag "/commits.atom".toList = true) :
    (∀ kind u, (kind, u) ∈ (main env f w).world.fetches →
        (kind, u) ∈ w.fetches
        ∨ (kind = FeedKind.Releases ∧ u = f.urlFlag)
        ∨ (kind = FeedKind.Commits
            ∧ u = Replace f.urlFlag "releases.atom".toList "commits.atom".toList 1))
    ∧ ((releasesFlag f || f.allFlag) = true →
        (FeedKind.Releases, f.urlFlag) ∈ (main env f w).world.fetches)
    ∧ (∀ w1, releasesStage env f w = .next w1 → (f.commitsFlag || f.allFlag) = true →
        (FeedKind.Commits, Replace f.urlFlag "releases.atom".toList "commits.atom".toList 1)
          ∈ (main env f w).world.fetches)
    ∧ (¬ "releases.atom".toList <:+: f.urlFlag →
        Replace f.urlFlag "releases.atom".toList "commits.atom".toList 1 = f.urlFlag) := by
  have hu : f.urlFlag ≠ [] := by
    rcases hs with h | h
    · exact nonempty_of_hasSuffix _ _ (by decide) h
    · exact nonempty_of_hasSuffix _ _ (by decide) h
  have hfeed := feedURL_of_suffixed f hs
  have hmain := main_fetches env f w hu
  rw [hfeed] at hmain
  refine ⟨?_, ?_, ?_, ?_⟩
  · intro kind u hmem
    rw [hmain] at hmem
    simp only [List.mem_append] at hmem
    rcases hmem with (h | h) | h
    · exact Or.inl h
    · split at h
      · simp only [List.mem_singleton, Prod.mk.injEq] at h
        exact Or.inr (Or.inl h)
      · simp at h
    · split at h
      · split at h
        · simp only [List.mem_singleton, Prod.mk.injEq] at h
          exact Or.inr (Or.inr h)
        · simp at h
      · simp at h
  · intro hrel
    rw [hmain, hrel]
    simp
  · intro w1 hnext hcom
    rw [hmain, hnext]
    simp only [hcom, if_true, commitFeedURL]
    simp
  · intro hno
    exact replace_absent _ _ _ _ (by decide) hno

theorem suffixed_url_fetches_witness :
    HasSuffix "https://example.com/org/repo/commits.atom".toList "/commits.atom".toList = true
    ∧ (FeedKind.Releases, "https://example.com/org/repo/commits.atom".toList)
        ∈ (main offlineEnv
            ⟨"https://example.com/org/repo/commits.atom".toList, true, false, false, 1, []⟩
            emptyWorld).world.fetches :=
  ⟨by decide,
    (suffixed_url_fetches offlineEnv
      ⟨"https://example.com/org/repo/commits.atom".toList, true, false, false, 1, []⟩
      emptyWorld (Or.inr (by decide))).2.1 (by decide)⟩

/-- C3 as stated fails: for the input URL `.../repo/releases.atom` with `-c`,
the fetch is made on `.../repo/commits.atom`, not on the input URL. -/
theorem suffixed_url_changed_for_commits :
    HasSuffix "https://example.com/org/repo/releases.atom".toList "/releases.atom".toList = true
    ∧ (main offlineEnv
        ⟨"https://example.com/org/repo/releases.atom".toList, false, true, false, 1, []⟩
        emptyWorld).world.fetches
      = [(FeedKind.Commits, "https://example.com/org/repo/commits.atom".toList)]
    ∧ "https://example.com/org/repo/commits.atom".toList
      ≠ "https://example.com/org/repo/releases.atom".toList := by
  refine ⟨by decide, by decide, by decide⟩

theorem feedURL_unsuffixed (f : Flags)
    (hr : HasSuffix f.urlFlag "/releases.atom".toList = false)
    (hc : HasSuffix f.urlFlag "/commits.atom".toList = false)
    (hrun : (f.commitsFlag || f.allFlag) = true) :
    feedURL f = TrimSuffix f.urlFlag "/".toList ++ "/releases.atom".toList
    ∨ feedURL f = TrimSuffix f.urlFlag "/".toList ++ "/commits.atom".toList := by
  unfold feedURL
  simp only [hr, hc, Bool.not_false, Bool.and_self, if_true]
  by_cases h1 : (f.releasesFlag || f.allFlag) = true
  · left; rw [if_pos h1]
  · right
    rw [if_neg h1]
    have hcf : f.commitsFlag = true := by
      cases hcf : f.commitsFlag
      · cases haf : f.allFlag <;> simp [hcf, haf] at hrun h1
      · rfl
    rw [if_pos hcf]

/-- C4 (amended): for a base URL that does not end in `/releases.atom` or
`/commits.atom` and does not contain `releases.atom`, under every flag
combination that runs the commits pipeline, `GetCommits` is called on the base
URL with one trailing `/` removed followed by `/commits.atom`. -/
theorem commits_url_resolved (env : Env) (f : Flags) (w : World)
    (hr : HasSuffix f.urlFlag "/releases.atom".toList = false)
    (hc : HasSuffix f.urlFlag "/commits.atom".toList = false)
    (hrun : (f.commitsFlag || f.allFlag) = true)
    (hno : ¬ "releases.atom".toList <:+: f.urlFlag) :
    commitFeedURL (feedURL f) = TrimSuffix f.urlFlag "/".toList ++ "/commits.atom".toList
    ∧ (∀ u, (FeedKind.Commits, u) ∈ (main env f w).world.fetches →
        (FeedKind.Commits, u) ∈ w.fetches
        ∨ u = TrimSuffix f.urlFlag "/".toList ++ "/commits.atom".toList)
    ∧ (f.urlFlag ≠ [] → ∀ w1, releasesStage env f w = .next w1 →
        (FeedKind.Commits, TrimSuffix f.urlFlag "/".toList ++ "/commits.atom".toList)
          ∈ (main env f w).world.fetches) := by
  have hnot : ¬ "releases.atom".toList <:+: TrimSuffix f.urlFlag "/".toList := fun h =>
    hno (h.trans (trimSuffix_isPrefix _ _).isInfix)
  have hurl : commitFeedURL (feedURL f)
      = TrimSuffix f.urlFlag "/".toList ++ "/commits.atom".toList := by
    rcases feedURL_unsuffixed f hr hc hrun with h | h
    · rw [h]; exact commitFeedURL_releases _ hnot
    · rw [h]; exact commitFeedURL_commits _ hnot
  refine ⟨hurl, ?_, ?_⟩
  · intro u hmem
    by_cases hu : f.urlFlag = []
    · left
      simpa [main, hu, printHelp, Println, Flow.world] using hmem
    · rw [main_fetches env f w hu, hurl] at hmem
      simp only [hrun, if_true, List.mem_append] at hmem
      rcases hmem with (h | h) | h
      · exact Or.inl h
      · split at h
        · simp only [List.mem_singleton, Prod.mk.injEq] at h
          exact absurd h.1 (by decide)
        · simp at h
      · split at h
        · simp only [List.mem_singleton, Prod.mk.injEq] at h
          exact Or.inr h.2
        · simp at h
  · intro hu w1 hnext
    rw [main_fetches env f w hu, hurl, hnext]
    simp only [hrun, if_true]
    simp

theorem commits_url_resolved_witness :
    HasSuffix "https://example.com/org/repo/".toList "/releases.atom".toList = false
    ∧ HasSuffix "https://example.com/org/repo/".toList "/commits.atom".toList = false
    ∧ ¬ "releases.atom".toList <:+: "https://example.com/org/repo/".toList
    ∧ commitFeedURL (feedURL ⟨"https://example.com/org/repo/".toList, true, true, false, 1, []⟩)
        = "https://example.com/org/repo/commits.atom".toList :=
  ⟨by decide, by decide, by decide,
    (commits_url_resolved offlineEnv
      ⟨"https://example.com/org/repo/".toList, true, true, false, 1, []⟩ emptyWorld
      (by decide) (by decide) (by decide) (by decide)).1⟩

/-- C4 as stated fails: for the base URL `https://example.com/releases.atom/repo`
with `-c`, `GetCommits` is called on
`https://example.com/commits.atom/repo/commits.atom`. -/
theorem commits_url_not_resolved :
    HasSuffix "https://example.com/releases.atom/repo".toList "/releases.atom".toList = false
    ∧ HasSuffix "https://example.com/releases.atom/repo".toList "/commits.atom".toList = false
    ∧ (main offlineEnv
        ⟨"https://example.com/releases.atom/repo".toList, false, true, false, 1, []⟩
        emptyWorld).world.fetches
      = [(FeedKind.Commits, "https://example.com/commits.atom/repo/commits.atom".toList)]
    ∧ "https://example.com/commits.atom/repo/commits.atom".toList
      ≠ TrimSuffix "https://example.com/releases.atom/repo".toList "/".toList
          ++ "/commits.atom".toList := by
  refine ⟨by decide, by decide, by decide, by decide⟩

/-! ## Sample runs -/

theorem extract_published_witness :
    threeItemEnv.ParseURL emptyWorld.fetches.length "https://example.com/org/repo/releases.atom".toList
        = .ok [firstItem, undatedItem, thirdItem]
    ∧ (GetReleases threeItemEnv "https://example.com/org/repo/releases.atom".toList emptyWorld).2
        = .ok [⟨"v1.2".toList, "fixes".toList, "https://example.com/t/v1.2".toList,
                ⟨1704139200, 0, ⟨"UTC".toList, 0⟩⟩⟩,
               ⟨"v1.0".toList, "first".toList, "https://example.com/t/v1.0".toList,
                ⟨1700000000, 0, ⟨"CET".toList, 3600⟩⟩⟩] :=
  ⟨rfl,
    (extract_published threeItemEnv "https://example.com/org/repo/releases.atom".toList
      emptyWorld [firstItem, undatedItem, thirdItem] rfl).1⟩

theorem outputLoop_selects_witness :
    outputLoop 2 ['a', 'b', 'c'] printChar 0 emptyWorld
        = processAll printChar ['a', 'b'] emptyWorld
    ∧ outputLoop 5 ['a', 'b', 'c'] printChar 0 emptyWorld
        = processAll printChar ['a', 'b', 'c'] emptyWorld
    ∧ outputLoop (-1) ['a', 'b', 'c'] printChar 0 emptyWorld = .next emptyWorld
    ∧ ∀ v : World, outputLoop 2 ['a', 'b', 'c'] printChar 0 emptyWorld ≠ .indexOutOfRange v :=
  ⟨(outputLoop_selects 2 ['a', 'b', 'c'] printChar emptyWorld).1,
    (outputLoop_selects 5 ['a', 'b', 'c'] printChar emptyWorld).1,
    (outputLoop_selects (-1) ['a', 'b', 'c'] printChar emptyWorld).1,
    (outputLoop_selects 2 ['a', 'b', 'c'] printChar emptyWorld).2.2
      (fun _ _ _ h => Flow.noConfusion h)⟩

theorem file_holds_selected_blocks_witness :
    (∀ k, threeItemEnv.ParseURL k "https://example.com/org/repo/releases.atom".toList
        = .ok [firstItem, undatedItem, thirdItem])
    ∧ (∀ p, threeItemEnv.Create p = none)
    ∧ (∀ k, threeItemEnv.WriteString k = none)
    ∧ (releasesPipeline threeItemEnv
          ⟨"https://example.com/org/repo".toList, true, false, false, 1, []⟩
          "https://example.com/org/repo/releases.atom".toList
          (releasesPipeline threeItemEnv
            ⟨"https://example.com/org/repo".toList, true, false, false, 3, []⟩
            "https://example.com/org/repo/releases.atom".toList
            emptyWorld).world).world.files "releases.atom".toList
        = some ("发布版本：v1.2\n发布时间：2024-01-02 04:00:00\n发布说明：fixes\n".toList
            ++ "版本链接：https://example.com/t/v1.2\n\n".toList) :=
  ⟨fun _ => rfl, fun _ => rfl, fun _ => rfl,
    ((file_holds_selected_blocks threeItemEnv
      ⟨"https://example.com/org/repo".toList, true, false, false, 3, []⟩
      "https://example.com/org/repo/releases.atom".toList emptyWorld
      [firstItem, undatedItem, thirdItem] [firstItem, undatedItem, thirdItem]
      (fun _ => rfl) (fun _ => rfl) (fun _ => rfl) (fun _ => rfl)).2.2.1 1).trans (by decide)⟩

theorem write_failure_stops_witness :
    diskFullEnv.WriteString 0 = none
    ∧ diskFullEnv.WriteString 1 = some ("no space left on device".toList, 5)
    ∧ (1 < selected 3 ([firstItem, undatedItem, thirdItem].filterMap releaseOfItem).length)
    ∧ (releasesPipeline diskFullEnv
          ⟨"https://example.com/org/repo".toList, true, false, false, 3, []⟩
          "https://example.com/org/repo/releases.atom".toList emptyWorld).world.files
          "releases.atom".toList
        = some ("发布版本：v1.2\n发布时间：2024-01-02 04:00:00\n发布说明：fixes\n".toList
            ++ "版本链接：https://example.com/t/v1.2\n\n".toList ++ "发布版本：".toList)
    ∧ (commitsPipeline diskFullEnv
          ⟨"https://example.com/org/repo".toList, false, true, false, 3, []⟩
          "https://example.com/org/repo/commits.atom".toList emptyWorld).world.files
          "commits.atom".toList
        = some ("提交说明：v1.2\n提交时间：2024-01-02 04:00:00\n".toList
            ++ "详细链接：https://example.com/t/v1.2\n\n".toList ++ "提交说明：".toList) :=
  ⟨rfl, rfl, by decide, by
    rw [(write_failure_stops diskFullEnv
      ⟨"https://example.com/org/repo".toList, true, false, false, 3, []⟩
      "https://example.com/org/repo/releases.atom".toList emptyWorld).1
      [firstItem, undatedItem, thirdItem] 1
      ⟨"v1.0".toList, "first".toList, "https://example.com/t/v1.0".toList,
        ⟨1700000000, 0, ⟨"CET".toList, 3600⟩⟩⟩
      "no space left on device".toList 5 rfl rfl (by decide) rfl
      (by intro k hk; interval_cases k; rfl) rfl]
    decide, by
    rw [(write_failure_stops diskFullEnv
      ⟨"https://example.com/org/repo".toList, false, true, false, 3, []⟩
      "https://example.com/org/repo/commits.atom".toList emptyWorld).2
      [firstItem, undatedItem, thirdItem] 1
      ⟨"v1.0".toList, "https://example.com/t/v1.0".toList,
        ⟨1700000000, 0, ⟨"CET".toList, 3600⟩⟩⟩
      "no space left on device".toList 5 rfl rfl (by decide) rfl
      (by intro k hk; interval_cases k; rfl) rfl]
    decide⟩

/-- C9 as stated fails: when the second write fails after five characters, the
file holds the first block followed by the first five characters of the second
block, not exactly the blocks before the failing one. -/
theorem failed_write_leaves_part_of_block :
    diskFullEnv.WriteString 0 = none
    ∧ diskFullEnv.WriteString 1 = some ("no space left on device".toList, 5)
    ∧ (releasesPipeline diskFullEnv
          ⟨"https://example.com/org/repo".toList, true, false, false, 3, []⟩
          "https://example.com/org/repo/releases.atom".toList emptyWorld).world.files
          "releases.atom".toList
        = some ("发布版本：v1.2\n发布时间：2024-01-02 04:00:00\n发布说明：fixes\n".toList
            ++ "版本链接：https://example.com/t/v1.2\n\n".toList ++ "发布版本：".toList)
    ∧ (releasesPipeline diskFullEnv
          ⟨"https://example.com/org/repo".toList, true, false, false, 3, []⟩
          "https://example.com/org/repo/releases.atom".toList emptyWorld).world.files
          "releases.atom".toList
        ≠ some (((([firstItem, undatedItem, thirdItem].filterMap releaseOfItem).take 1).map
            releaseOutput).flatten) := by
  have h := releasesPipeline_write_failure diskFullEnv
      ⟨"https://example.com/org/repo".toList, true, false, false, 3, []⟩
      "https://example.com/org/repo/releases.atom".toList emptyWorld
      [firstItem, undatedItem, thirdItem] 1
      ⟨"v1.0".toList, "first".toList, "https://example.com/t/v1.0".toList,
        ⟨1700000000, 0, ⟨"CET".toList, 3600⟩⟩⟩
      "no space left on device".toList 5 rfl rfl (by decide) rfl
      (by intro k hk; interval_cases k; rfl) rfl
  refine ⟨rfl, rfl, ?_, ?_⟩
  · rw [h]; decide
  · rw [h]; decide

/-! ## Date text -/

theorem yearDay_arith (d q r a0 a r2 b r3 c0 c yd : Nat) (Y : Int)
    (hq : q = d / 146097) (hr : r = d - 146097 * q) (ha0 : a0 = r / 36524)
    (ha : a = a0 - a0 >>> 2) (hr2 : r2 = r - 36524 * a) (hb : b = r2 / 1461)
    (hr3 : r3 = r2 - 1461 * b) (hc0 : c0 = r3 / 365) (hc : c = c0 - c0 >>> 2)
    (hyd : yd = r3 - 365 * c)
    (hY : Y = ((400 * q + 100 * a + 4 * b + c : Nat) : Int) + -292277022399) :
    365 * (Y - 1) + (Y - 1) / 4 - (Y - 1) / 100 + (Y - 1) / 400 + (yd : Int)
        = d + -106751990353932
    ∧ (yd < 365 ∨ (yd = 365 ∧ (Y % 4 = 0 ∧ (Y % 100 ≠ 0 ∨ Y % 400 = 0)))) := by
  have e2 : ∀ n : Nat, n >>> 2 = n / 4 := fun n => by
    rw [Nat.shiftRight_eq_div_pow]
  rw [e2] at ha hc
  have hrlt : r < 146097 := by omega
  have hdr : d = 146097 * q + r := by omega
  have ha3 : a ≤ 3 := by omega
  have hr2' : r = 36524 * a + r2 := by omega
  have hr2lt : r2 < 36524 ∨ (a = 3 ∧ r2 = 36524) := by omega
  have hb24 : b ≤ 24 := by omega
  have hr3' : r2 = 1461 * b + r3 := by omega
  have hr3lt : r3 < 1461 := by omega
  have hc3 : c ≤ 3 := by omega
  have hyd' : r3 = 365 * c + yd := by omega
  have hydlt : yd < 365 ∨ (c = 3 ∧ yd = 365) := by omega
  have hY1 : Y - 1 = 400 * ((q : Int) - 730692556) + (100 * a + 4 * b + c) := by omega
  have h4 : (Y - 1) / 4 = 100 * ((q : Int) - 730692556) + 25 * a + b := by omega
  have h100 : (Y - 1) / 100 = 4 * ((q : Int) - 730692556) + a := by omega
  have h400 : (Y - 1) / 400 = (q : Int) - 730692556 := by omega
  refine ⟨by omega, ?_⟩
  rcases hydlt with h | ⟨hc3', hyd365⟩
  · exact Or.inl h
  · right
    refine ⟨hyd365, by omega, ?_⟩
    by_cases hb24' : b = 24
    · by_cases ha3' : a = 3
      · right; omega
      · left; omega
    · left; omega

/-- The year and the day of the year computed by `absDate` are those of the
civil calendar. -/
theorem absYearDay_spec (d : Nat) :
    daysBeforeYear (absYearDay d).1 + ((absYearDay d).2 : Int) = d + -106751990353932
    ∧ ((absYearDay d).2 < 365
        ∨ ((absYearDay d).2 = 365 ∧ leapYear (absYearDay d).1 = true)) := by
  have h := yearDay_arith d _ _ _ _ _ _ _ _ _ (absYearDay d).2 (absYearDay d).1
    rfl rfl rfl rfl rfl rfl rfl rfl rfl rfl rfl
  refine ⟨h.1, ?_⟩
  rcases h.2 with h2 | ⟨h2, h3⟩
  · exact Or.inl h2
  · exact Or.inr ⟨h2, by simpa [leapYear] using h3⟩

theorem isLeap_eq_leapYear (y : Int) : isLeap y = leapYear y := by
  have e : ∀ k : Int, (y.tmod k = 0) ↔ (y % k = 0) := fun k => by
    rw [← Int.dvd_iff_tmod_eq_zero, Int.dvd_iff_emod_eq_zero]
  rw [Bool.eq_iff_iff]
  simp only [isLeap, leapYear, Bool.and_eq_true, Bool.or_eq_true, beq_iff_eq, bne_iff_ne, ne_eq,
    decide_eq_true_eq, e]

/-- The month and the day of the month computed by `absDate` are those of the
civil calendar. -/
theorem monthDay_spec : ∀ leap : Bool, ∀ yday : Nat, yday < 366 → (leap = true ∨ yday < 365) →
    1 ≤ (monthDay leap yday).1 ∧ (monthDay leap yday).1 ≤ 12
    ∧ 1 ≤ (monthDay leap yday).2
    ∧ (monthDay leap yday).2 ≤ daysInMonth leap (monthDay leap yday).1
    ∧ daysBeforeMonth leap (monthDay leap yday).1 + (monthDay leap yday).2 = yday + 1 := by
  decide

theorem absClock_spec (abs : Nat) :
    (absClock abs).1 < 24 ∧ (absClock abs).2.1 < 60 ∧ (absClock abs).2.2 < 60
    ∧ (absClock abs).1 * 3600 + (absClock abs).2.1 * 60 + (absClock abs).2.2 = abs % 86400 := by
  simp only [absClock, secondsPerDay]
  omega

theorem formatLayout_dateTime (year : Int) (month day hour min sec : Nat) :
    formatLayout year month day hour min sec "2006-01-02 15:04:05".toList
      = appendInt year 4 ++ '-' :: (appendInt month 2 ++ '-' :: (appendInt day 2 ++ ' ' ::
          (appendInt hour 2 ++ ':' :: (appendInt min 2 ++ ':' :: appendInt sec 2)))) := by
  simp [formatLayout]

theorem appendInt_two (n : Nat) (h : n < 100) : appendInt n 2 = zeroPadded 2 n := by
  have h1 : ¬ ((n : Int) < 0) := by omega
  have h2 : n / 10 % 10 = n / 10 := Nat.mod_eq_of_lt (by omega)
  simp [appendInt, zeroPadded, h, h1, h2]

theorem appendInt_four (y : Int) (h0 : 0 ≤ y) (h1 : y ≤ 9999) :
    appendInt y 4 = zeroPadded 4 y.toNat := by
  obtain ⟨n, rfl⟩ := Int.eq_ofNat_of_zero_le h0
  have hn : n < 10000 := by omega
  have hneg : ¬ ((n : Int) < 0) := by omega
  have e1 : n / 100 / 10 = n / 10 / 10 / 10 % 10 := by omega
  have e2 : n / 100 % 10 = n / 10 / 10 % 10 := by omega
  have e3 : n % 100 / 10 = n / 10 % 10 := by omega
  have e4 : n % 100 % 10 = n % 10 := by omega
  simp [appendInt, zeroPadded, hn, hneg, e1, e2, e3, e4]

/-- The date text of a block, for every instant on the absolute time scale of
package `time`: the civil date and time of the instant shifted by +8 hours,
with the year as `appendInt` writes it. -/
theorem localTimeText_on_absolute_scale (t : Time)
    (hlo : -9223372028715350400 ≤ t.unixSec) (hhi : t.unixSec < 2 ^ 63) :
    (∃ (y : Int) (m d hour min sec : Nat),
        ValidCivil y m d hour min sec
        ∧ civilToUnix y m d hour min sec = t.unixSec + 8 * 3600
        ∧ localTimeText t
            = appendInt y 4 ++ "-".toList ++ zeroPadded 2 m ++ "-".toList ++ zeroPadded 2 d
              ++ " ".toList ++ zeroPadded 2 hour ++ ":".toList ++ zeroPadded 2 min
              ++ ":".toList ++ zeroPadded 2 sec
        ∧ (0 ≤ y → y ≤ 9999 → appendInt y 4 = zeroPadded 4 y.toNat))
    ∧ (∀ t' : Time, t'.unixSec = t.unixSec → localTimeText t' = localTimeText t) := by
  constructor
  · -- no wrap-around in `abs`
    have habs : ((t.In (FixedZone "UTC+8".toList (8 * 3600))).abs : Int)
        = t.unixSec + 28800 + 9223372028715321600 := by
      simp only [Time.abs, Time.In, FixedZone, unixToInternal, internalToAbsolute]
      rw [Int.toNat_of_nonneg (Int.emod_nonneg _ (by norm_num))]
      rw [Int.emod_eq_of_lt (by omega) (by omega)]
      omega
    have hfmt : localTimeText t
        = formatLayout
            (absYearDay ((t.In (FixedZone "UTC+8".toList (8 * 3600))).abs / 86400)).1
            (monthDay
              (isLeap (absYearDay ((t.In (FixedZone "UTC+8".toList (8 * 3600))).abs / 86400)).1)
              (absYearDay ((t.In (FixedZone "UTC+8".toList (8 * 3600))).abs / 86400)).2).1
            (monthDay
              (isLeap (absYearDay ((t.In (FixedZone "UTC+8".toList (8 * 3600))).abs / 86400)).1)
              (absYearDay ((t.In (FixedZone "UTC+8".toList (8 * 3600))).abs / 86400)).2).2
            (absClock (t.In (FixedZone "UTC+8".toList (8 * 3600))).abs).1
            (absClock (t.In (FixedZone "UTC+8".toList (8 * 3600))).abs).2.1
            (absClock (t.In (FixedZone "UTC+8".toList (8 * 3600))).abs).2.2
            "2006-01-02 15:04:05".toList := rfl
    rw [isLeap_eq_leapYear] at hfmt
    generalize (t.In (FixedZone "UTC+8".toList (8 * 3600))).abs = abs at habs hfmt
    have hyd := absYearDay_spec (abs / 86400)
    have hclock := absClock_spec abs
    have hmd := monthDay_spec (leapYear (absYearDay (abs / 86400)).1)
      (absYearDay (abs / 86400)).2 (by omega)
      (by rcases hyd.2 with h | h
          · exact Or.inr h
          · exact Or.inl h.2)
    refine ⟨(absYearDay (abs / 86400)).1,
      (monthDay (leapYear (absYearDay (abs / 86400)).1) (absYearDay (abs / 86400)).2).1,
      (monthDay (leapYear (absYearDay (abs / 86400)).1) (absYearDay (abs / 86400)).2).2,
      (absClock abs).1, (absClock abs).2.1, (absClock abs).2.2, ?_, ?_, ?_, ?_⟩
    · exact ⟨hmd.1, hmd.2.1, hmd.2.2.1, hmd.2.2.2.1, hclock.1, hclock.2.1, hclock.2.2.1⟩
    · have h1970 : daysBeforeYear 1970 = 719162 := by decide
      have hsum := hmd.2.2.2.2
      have hdiv := Nat.div_add_mod abs 86400
      simp only [civilToUnix, h1970]
      omega
    · have hdaysIn : ∀ (l : Bool) (k : Nat), daysInMonth l k ≤ 31 := by
        intro l k
        unfold daysInMonth
        split
        · split <;> omega
        · split <;> omega
      have hday := hdaysIn (leapYear (absYearDay (abs / 86400)).1)
        (monthDay (leapYear (absYearDay (abs / 86400)).1) (absYearDay (abs / 86400)).2).1
      rw [hfmt, formatLayout_dateTime, appendInt_two _ (by omega), appendInt_two _ (by omega),
        appendInt_two _ (by omega), appendInt_two _ (by omega), appendInt_two _ (by omega)]
      simp
    · exact appendInt_four _
  · intro t' h
    simp only [localTimeText, Time.Format, Time.abs, Time.In, h]

theorem length_zeroPadded (width : Nat) : ∀ n : Nat, (zeroPadded width n).length = width := by
  induction width with
  | zero => intro n; rfl
  | succ k ih => intro n; simp [zeroPadded, ih]

theorem dayOfYear_bound : ∀ leap : Bool, ∀ m : Nat, m < 13 → ∀ d : Nat, d < 32 →
    1 ≤ m → 1 ≤ d → d ≤ daysInMonth leap m →
    daysBeforeMonth leap m + d ≤ (if leap = true then 366 else 365) := by
  decide

theorem daysInMonth_le (leap : Bool) (m : Nat) : daysInMonth leap m ≤ 31 := by
  unfold daysInMonth
  split
  · split <;> omega
  · split <;> omega

/-- A day that lies in the years 0000 to 9999 belongs to one of these years. -/
theorem year_in_range (y k : Int) (hk0 : 0 ≤ k)
    (hk : k ≤ 364 ∨ (k = 365 ∧ leapYear y = true))
    (hlo : -366 ≤ daysBeforeYear y + k) (hhi : daysBeforeYear y + k ≤ 3652058) :
    0 ≤ y ∧ y ≤ 9999 := by
  simp only [leapYear, decide_eq_true_eq] at hk
  unfold daysBeforeYear at hlo hhi
  have e1 : (y - 1) / 100 = (y - 1) / 4 / 25 := by omega
  have e2 : (y - 1) / 400 = (y - 1) / 100 / 4 := by omega
  generalize hc : (y - 1) / 4 = c at *
  generalize hd : (y - 1) / 100 = d at *
  generalize he : (y - 1) / 400 = e at *
  have hc1 : 4 * c ≤ y - 1 ∧ y - 1 ≤ 4 * c + 3 := by omega
  have hd1 : 25 * d ≤ c ∧ c ≤ 25 * d + 24 := by omega
  have he1 : 4 * e ≤ d ∧ d ≤ 4 * e + 3 := by omega
  constructor
  · by_contra hneg
    have hy : y ≤ -1 := by omega
    have hcn : c ≤ -1 := by omega
    have hdn : d ≤ -1 := by omega
    have hen : e ≤ -1 := by omega
    omega
  · by_contra hbig
    have hy : 10000 ≤ y := by omega
    have hcn : 2499 ≤ c := by omega
    have hdn : 99 ≤ d := by omega
    have hen : 24 ≤ e := by omega
    by_cases hd99 : d = 99
    · omega
    · have : 100 ≤ d := by omega
      omega

/-- C7 (amended): for every record whose instant, shifted by +8 hours, falls
in the years 0000 to 9999, the date text of its block is the civil date and
time of the shifted instant written as zero-padded `YYYY-MM-DD HH:MM:SS` (19
characters); it depends on the instant only, not on the offset the record's
timestamp carries. -/
theorem localTimeText_civil (t : Time)
    (hlo : civilToUnix 0 1 1 0 0 0 ≤ t.unixSec + 8 * 3600)
    (hhi : t.unixSec + 8 * 3600 ≤ civilToUnix 9999 12 31 23 59 59) :
    (∃ (y : Int) (m d hour min sec : Nat),
        0 ≤ y ∧ y ≤ 9999
        ∧ ValidCivil y m d hour min sec
        ∧ civilToUnix y m d hour min sec = t.unixSec + 8 * 3600
        ∧ localTimeText t
            = zeroPadded 4 y.toNat ++ "-".toList ++ zeroPadded 2 m ++ "-".toList
              ++ zeroPadded 2 d ++ " ".toList ++ zeroPadded 2 hour ++ ":".toList
              ++ zeroPadded 2 min ++ ":".toList ++ zeroPadded 2 sec)
    ∧ (localTimeText t).length = 19
    ∧ (∀ t' : Time, t'.unixSec = t.unixSec → localTimeText t' = localTimeText t) := by
  have h0 : civilToUnix 0 1 1 0 0 0 = -62167219200 := by decide
  have h9 : civilToUnix 9999 12 31 23 59 59 = 253402300799 := by decide
  rw [h0] at hlo
  rw [h9] at hhi
  obtain ⟨⟨y, m, d, hour, min, sec, hv, hc, htxt, hyear⟩, hsame⟩ :=
    localTimeText_on_absolute_scale t (by omega) (by omega)
  obtain ⟨hm1, hm12, hd1, hdm, hh, hmi, hs⟩ := hv
  have hd31 := daysInMonth_le (leapYear y) m
  have hdoy := dayOfYear_bound (leapYear y) m (by omega) d (by omega) hm1 hd1 hdm
  have h1970 : daysBeforeYear 1970 = 719162 := by decide
  have hy : 0 ≤ y ∧ y ≤ 9999 := by
    apply year_in_range y ((daysBeforeMonth (leapYear y) m : Int) + ((d : Int) - 1))
    · omega
    · cases hl : leapYear y
      · rw [hl] at hdoy
        simp only [Bool.false_eq_true, if_false] at hdoy
        left; omega
      · rw [hl] at hdoy
        simp only [if_true] at hdoy
        by_cases h365 : (daysBeforeMonth true m : Int) + ((d : Int) - 1) = 365
        · right; exact ⟨h365, rfl⟩
        · left; omega
    · simp only [civilToUnix, h1970] at hc
      omega
    · simp only [civilToUnix, h1970] at hc
      omega
  have htext : localTimeText t
      = zeroPadded 4 y.toNat ++ "-".toList ++ zeroPadded 2 m ++ "-".toList
        ++ zeroPadded 2 d ++ " ".toList ++ zeroPadded 2 hour ++ ":".toList
        ++ zeroPadded 2 min ++ ":".toList ++ zeroPadded 2 sec := by
    rw [htxt, hyear hy.1 hy.2]
  refine ⟨⟨y, m, d, hour, min, sec, hy.1, hy.2, ⟨hm1, hm12, hd1, hdm, hh, hmi, hs⟩, hc, htext⟩,
    ?_, hsame⟩
  rw [htext]
  simp only [List.length_append, length_zeroPadded]
  rfl

theorem localTimeText_civil_witness :
    civilToUnix 0 1 1 0 0 0 ≤ (1704139200 : Int) + 8 * 3600
    ∧ (1704139200 : Int) + 8 * 3600 ≤ civilToUnix 9999 12 31 23 59 59
    ∧ localTimeText ⟨1704139200, 0, ⟨"+05:30".toList, 19800⟩⟩
        = localTimeText ⟨1704139200, 0, ⟨"UTC".toList, 0⟩⟩
    ∧ localTimeText ⟨1704139200, 0, ⟨"UTC".toList, 0⟩⟩ = "2024-01-02 04:00:00".toList :=
  ⟨by decide, by decide,
    (localTimeText_civil ⟨1704139200, 0, ⟨"UTC".toList, 0⟩⟩ (by decide) (by decide)).2.2
      ⟨1704139200, 0, ⟨"+05:30".toList, 19800⟩⟩ rfl,
    by decide⟩

/-- C7 as stated fails: the feed date 9999-12-31T23:59:59Z, shifted by +8
hours, is rendered with a five-digit year, in 20 characters, not as
`YYYY-MM-DD HH:MM:SS`. -/
theorem localTimeText_five_digit_year :
    civilToUnix 9999 12 31 23 59 59 = 253402300799
    ∧ localTimeText ⟨253402300799, 0, ⟨"UTC".toList, 0⟩⟩ = "10000-01-01 07:59:59".toList
    ∧ (localTimeText ⟨253402300799, 0, ⟨"UTC".toList, 0⟩⟩).length = 20
    ∧ (localTimeText ⟨253402300799, 0, ⟨"UTC".toList, 0⟩⟩).length ≠ 19 := by
  decide

end RssGithub
